import Mathlib

/-!
Shallow embedding of `src/ipv6.ts` (ip6seed): IPv6 address ⇄ BIP39-style
mnemonic sentence codec.  JavaScript strings are modelled as `List Char`
(UTF-16 code units, here always scalar values), JS `bigint` as `Nat`
(all values in this code are non-negative), byte arrays as `List Nat`
(each entry < 256), and thrown exceptions as `Except Err`.
-/

abbrev Str := List Char

/-- Errors thrown by the source (`IPv6ConversionError` / `InvalidBIP39Error`
constructor per throw site, with its message's dynamic part where present). -/
inductive Err where
  | ipv6NotString
  | ipv6Empty
  | ipv6MultiSS
  | ipv6TooManyGroups
  | ipv6BadGroupCount
  | ipv6InvalidGroup (g : Str)
  | bipInvalidSentence
  | bipInvalidWord
  | bipChecksumInvalid
  | bipNotString
deriving DecidableEq

/-- JS whitespace (`String.prototype.trim` WhiteSpace ∪ LineTerminator,
which coincides with the regex class `\s`). -/
def isJsWs (c : Char) : Bool :=
  [9, 10, 11, 12, 13, 32, 160, 5760, 8192, 8193, 8194, 8195, 8196, 8197,
   8198, 8199, 8200, 8201, 8202, 8232, 8233, 8239, 8287, 12288, 65279].contains c.toNat

/-- `String.prototype.toLowerCase` restricted to its ASCII action (all strings
reaching it in the claims are ASCII). -/
def jsToLower (s : Str) : Str :=
  s.map fun c => if 65 ≤ c.toNat ∧ c.toNat ≤ 90 then Char.ofNat (c.toNat + 32) else c

/-- `String.prototype.toUpperCase` on a single char, ASCII action (used by
`capitalize` on the first char of a wordlist word). -/
def toUpperChar (c : Char) : Char :=
  if 97 ≤ c.toNat ∧ c.toNat ≤ 122 then Char.ofNat (c.toNat - 32) else c

/-- `String.prototype.trim`. -/
def jsTrim (s : Str) : Str :=
  ((s.dropWhile isJsWs).reverse.dropWhile isJsWs).reverse

/-- `String.prototype.split` with a single-character separator
(JS keeps empty fields, and `""` splits to `[""]`). -/
def splitCharGo (sep : Char) : Str → Str → List Str
  | [], acc => [acc.reverse]
  | c :: cs, acc =>
    if c = sep then acc.reverse :: splitCharGo sep cs []
    else splitCharGo sep cs (c :: acc)

def splitChar (sep : Char) (s : Str) : List Str := splitCharGo sep s []

/-- `String.prototype.split('::')`: split at leftmost, non-overlapping
occurrences of two consecutive colons. -/
def splitSSGo : Str → Str → List Str
  | [], acc => [acc.reverse]
  | [c], acc => [(c :: acc).reverse]
  | c1 :: c2 :: rest, acc =>
    if c1 = ':' ∧ c2 = ':' then acc.reverse :: splitSSGo rest []
    else splitSSGo (c2 :: rest) (c1 :: acc)

def splitSS (s : Str) : List Str := splitSSGo s []

/-- `String.prototype.split(re)` for the regex of one-or-more whitespace:
fields are maximal non-whitespace runs; a leading or trailing run of
whitespace contributes an empty field, interior runs do not.
`inSep` records that the previous character was part of a separator run. -/
def splitWsGo : Str → Str → Bool → List Str
  | [], acc, _ => [acc.reverse]
  | c :: cs, acc, inSep =>
    if isJsWs c then
      if inSep then splitWsGo cs [] true
      else acc.reverse :: splitWsGo cs [] true
    else splitWsGo cs (c :: acc) false

def splitWs (s : Str) : List Str := splitWsGo s [] false

def isHexDigit (c : Char) : Bool :=
  (48 ≤ c.toNat && c.toNat ≤ 57) || (97 ≤ c.toNat && c.toNat ≤ 102)

/-- The test `/^[0-9a-f]{1,4}$/.test(g)`. -/
def isHexGroup (g : Str) : Bool :=
  decide (1 ≤ g.length) && decide (g.length ≤ 4) && g.all isHexDigit

/-- Value of one hex digit (callers only apply it to `[0-9a-f]` chars,
guarded by `isHexGroup`, mirroring the source's regex-then-parseInt order). -/
def hexVal (c : Char) : Nat :=
  if 48 ≤ c.toNat ∧ c.toNat ≤ 57 then c.toNat - 48
  else if 97 ≤ c.toNat ∧ c.toNat ≤ 102 then c.toNat - 87
  else 0

/-- `parseInt(g, 16)` on a string of hex digits. -/
def parseHex (g : Str) : Nat :=
  g.foldl (fun a c => a * 16 + hexVal c) 0

/-- One lowercase hex digit, as produced by `Number.prototype.toString(16)`. -/
def hexChar (d : Nat) : Char :=
  Char.ofNat (if d < 10 then 48 + d else 87 + d)

/-- Digit-emitting loop of `Number.prototype.toString(16)`; fuel-driven to
stay structurally recursive (fuel `m` suffices since `m / 16 < m`). -/
def toHexGo : Nat → Nat → Str → Str
  | 0, _, acc => acc
  | f + 1, m, acc => if m = 0 then acc else toHexGo f (m / 16) (hexChar (m % 16) :: acc)

/-- `n.toString(16)` for a non-negative integer `n`. -/
def toHexString (n : Nat) : Str :=
  if n = 0 then ['0'] else toHexGo n n []

/-- Group-folding loop of `ip6ToBigInt`: regex-check then accumulate
`(num << 16) | parseInt(g, 16)`, throwing on the first invalid group. -/
def foldGroups : List Str → Nat → Except Err Nat
  | [], acc => .ok acc
  | g :: gs, acc =>
    if isHexGroup g then foldGroups gs ((acc <<< 16) ||| parseHex g)
    else .error (.ipv6InvalidGroup g)

/-- `ip6ToBigInt` from `src/ipv6.ts`: parse an IPv6 address string into its
128-bit value. -/
def ip6ToBigInt (ip : Str) : Except Err Nat :=
  if ip = [] then .error .ipv6NotString
  else
    let ip := jsTrim (jsToLower ip)
    if ip = [] then .error .ipv6Empty
    else
      let sections := splitSS ip
      if sections.length > 2 then .error .ipv6MultiSS
      else
        let left :=
          if sections.getD 0 [] = [] then []
          else (splitChar ':' (sections.getD 0 [])).filter (fun g => !g.isEmpty)
        let right :=
          if sections.getD 1 [] = [] then []
          else (splitChar ':' (sections.getD 1 [])).filter (fun g => !g.isEmpty)
        if left.length + right.length > 8 then .error .ipv6TooManyGroups
        else
          let zeros := 8 - left.length - right.length
          let groups := left ++ List.replicate zeros ['0'] ++ right
          if groups.length ≠ 8 then .error .ipv6BadGroupCount
          else foldGroups groups 0

/-- Rendering loop of `bigIntToIp6`: extract the low 16 bits, `unshift` its
hex rendering, shift right; after 8 iterations the list is most-significant
group first. -/
def bigIntToIp6Go : Nat → Nat → List Str → List Str
  | 0, _, acc => acc
  | n + 1, big, acc => bigIntToIp6Go n (big >>> 16) (toHexString (big &&& 0xffff) :: acc)

/-- `bigIntToIp6` from `src/ipv6.ts`: render the low 128 bits as 8 colon-joined
hex groups without zero-compression. -/
def bigIntToIp6 (big : Nat) : Str :=
  List.intercalate [':'] (bigIntToIp6Go 8 big [])

/-- Byte-extraction loop of `bigIntToBytes`: `bytes[i]` is set to the low
8 bits at iteration `i`, then the value is shifted right, so the byte at
index 0 is the least significant. -/
def bigIntToBytesGo : Nat → Nat → List Nat
  | 0, _ => []
  | n + 1, big => (big &&& 0xff) :: bigIntToBytesGo n (big >>> 8)

/-- `bigIntToBytes` from `src/ipv6.ts`: 16 bytes, least-significant first. -/
def bigIntToBytes (big : Nat) : List Nat := bigIntToBytesGo 16 big

/-!
SHA-256. `sha256Hash` in the source delegates to node's
`crypto.createHash('sha256').update(message, 'utf8')`, which is not part of
this repository.  Modelled from the spec: "a 256-bit cryptographic hash (the
standard secure hash function)", i.e. SHA-256 per FIPS 180-4, preceded by
UTF-8 encoding of the JS string exactly as node's `'utf8'` update does.
-/

/-- UTF-8 encoding of one UTF-16 code unit (the source only ever feeds units
below 256, produced by `String.fromCharCode` on bytes; the BMP cases suffice). -/
def utf8EncodeUnit (u : Nat) : List Nat :=
  if u < 128 then [u]
  else if u < 2048 then [192 + u / 64, 128 + u % 64]
  else [224 + u / 4096, 128 + (u / 64) % 64, 128 + u % 64]

/-- UTF-8 encoding of a JS string given as its code-unit list. -/
def utf8Encode (units : List Nat) : List Nat :=
  (units.map utf8EncodeUnit).flatten

def add32 (a b : Nat) : Nat := (a + b) % 4294967296

def rotr32 (x n : Nat) : Nat := ((x >>> n) ||| (x <<< (32 - n))) &&& 0xffffffff

def bigSigma0 (x : Nat) : Nat := rotr32 x 2 ^^^ rotr32 x 13 ^^^ rotr32 x 22

def bigSigma1 (x : Nat) : Nat := rotr32 x 6 ^^^ rotr32 x 11 ^^^ rotr32 x 25

def smallSigma0 (x : Nat) : Nat := rotr32 x 7 ^^^ rotr32 x 18 ^^^ (x >>> 3)

def smallSigma1 (x : Nat) : Nat := rotr32 x 17 ^^^ rotr32 x 19 ^^^ (x >>> 10)

def chF (x y z : Nat) : Nat := (x &&& y) ^^^ ((x ^^^ 0xffffffff) &&& z)

def majF (x y z : Nat) : Nat := (x &&& y) ^^^ (x &&& z) ^^^ (y &&& z)

/-- FIPS 180-4 round constants. -/
def K256 : List Nat :=
  [1116352408, 1899447441, 3049323471, 3921009573, 961987163, 1508970993,
   2453635748, 2870763221, 3624381080, 310598401, 607225278, 1426881987,
   1925078388, 2162078206, 2614888103, 3248222580, 3835390401, 4022224774,
   264347078, 604807628, 770255983, 1249150122, 1555081692, 1996064986,
   2554220882, 2821834349, 2952996808, 3210313671, 3336571891, 3584528711,
   113926993, 338241895, 666307205, 773529912, 1294757372, 1396182291,
   1695183700, 1986661051, 2177026350, 2456956037, 2730485921, 2820302411,
   3259730800, 3345764771, 3516065817, 3600352804, 4094571909, 275423344,
   430227734, 506948616, 659060556, 883997877, 958139571, 1322822218,
   1537002063, 1747873779, 1955562222, 2024104815, 2227730452, 2361852424,
   2428436474, 2756734187, 3204031479, 3329325298]

/-- FIPS 180-4 initial hash value. -/
def H256 : List Nat :=
  [1779033703, 3144134277, 1013904242, 2773480762, 1359893119, 2600822924,
   528734635, 1541459225]

/-- Big-endian 32-bit words from bytes. -/
def bytesToWords : List Nat → List Nat
  | b0 :: b1 :: b2 :: b3 :: rest =>
    (((b0 * 256 + b1) * 256 + b2) * 256 + b3) :: bytesToWords rest
  | _ => []

/-- Bytes from big-endian 32-bit words. -/
def wordsToBytes : List Nat → List Nat
  | [] => []
  | w :: ws => [(w >>> 24) &&& 255, (w >>> 16) &&& 255, (w >>> 8) &&& 255, w &&& 255] ++ wordsToBytes ws

/-- Message-schedule extension: append words 16..63. -/
def scheduleGo : Nat → List Nat → List Nat
  | 0, ws => ws
  | k + 1, ws =>
    let n := ws.length
    let w := add32 (add32 (smallSigma1 (ws.getD (n - 2) 0)) (ws.getD (n - 7) 0))
                   (add32 (smallSigma0 (ws.getD (n - 15) 0)) (ws.getD (n - 16) 0))
    scheduleGo k (ws ++ [w])

structure Hash8 where
  a : Nat
  b : Nat
  c : Nat
  d : Nat
  e : Nat
  f : Nat
  g : Nat
  h : Nat
deriving DecidableEq

/-- One SHA-256 round. -/
def roundStep (st : Hash8) (kw : Nat × Nat) : Hash8 :=
  let t1 := add32 st.h (add32 (bigSigma1 st.e) (add32 (chF st.e st.f st.g) (add32 kw.1 kw.2)))
  let t2 := add32 (bigSigma0 st.a) (majF st.a st.b st.c)
  ⟨add32 t1 t2, st.a, st.b, st.c, add32 st.d t1, st.e, st.f, st.g⟩

/-- SHA-256 compression of one 64-byte block into the running hash. -/
def compress (hs : List Nat) (block : List Nat) : List Nat :=
  let ws := scheduleGo 48 (bytesToWords block)
  let st0 : Hash8 := ⟨hs.getD 0 0, hs.getD 1 0, hs.getD 2 0, hs.getD 3 0,
                      hs.getD 4 0, hs.getD 5 0, hs.getD 6 0, hs.getD 7 0⟩
  let st := (K256.zip ws).foldl roundStep st0
  [add32 (hs.getD 0 0) st.a, add32 (hs.getD 1 0) st.b, add32 (hs.getD 2 0) st.c,
   add32 (hs.getD 3 0) st.d, add32 (hs.getD 4 0) st.e, add32 (hs.getD 5 0) st.f,
   add32 (hs.getD 6 0) st.g, add32 (hs.getD 7 0) st.h]

/-- 8-byte big-endian rendering of the bit length. -/
def be64 (n : Nat) : List Nat :=
  [(n >>> 56) &&& 255, (n >>> 48) &&& 255, (n >>> 40) &&& 255, (n >>> 32) &&& 255,
   (n >>> 24) &&& 255, (n >>> 16) &&& 255, (n >>> 8) &&& 255, n &&& 255]

/-- FIPS 180-4 padding: `0x80`, zeros to 56 mod 64, then the 64-bit bit length. -/
def sha256Pad (ms : List Nat) : List Nat :=
  ms ++ 128 :: List.replicate ((119 - ms.length % 64) % 64) 0 ++ be64 (8 * ms.length)

/-- Split into 64-byte blocks (fuel-driven; the input length is a multiple
of 64 after padding). -/
def chunk64 : Nat → List Nat → List (List Nat)
  | 0, _ => []
  | f + 1, l => if l = [] then [] else l.take 64 :: chunk64 f (l.drop 64)

/-- SHA-256 of a byte list, as a 32-byte digest. -/
def sha256 (ms : List Nat) : List Nat :=
  wordsToBytes ((chunk64 (sha256Pad ms).length (sha256Pad ms)).foldl compress H256)

/-- `sha256Hash` from `src/ipv6.ts`: the message is a JS string (here: its
code-unit list) hashed after `'utf8'` encoding.  The source returns the hex
digest string and the callers read `parseInt(hashHex.substring(0, 2), 16)`,
which is exactly the first digest byte; we return the digest bytes. -/
def sha256Hash (units : List Nat) : List Nat :=
  sha256 (utf8Encode units)

theorem sha256_vector_empty :
    sha256 [] =
      [227, 176, 196, 66, 152, 252, 28, 20, 154, 251, 244, 200, 153, 111, 185,
       36, 39, 174, 65, 228, 100, 155, 147, 76, 164, 149, 153, 27, 120, 82, 184, 85] := by
  decide

theorem sha256_vector_abc :
    sha256 [97, 98, 99] =
      [186, 120, 22, 191, 143, 1, 207, 234, 65, 65, 64, 222, 93, 174, 34, 35,
       176, 3, 97, 163, 150, 23, 122, 156, 180, 16, 255, 97, 242, 0, 21, 173] := by
  decide

/-!
The mnemonic codec (`generateWords`, `getEntropyFromWords`) and the sentence
formatter.  `BIP39_WORDLIST` is imported from `src/wordlist.ts`, which is not
part of the sources; every definition below is therefore parameterized by a
wordlist `wl`.  Modelled from the spec: the wordlist is "a fixed, ordered
sequence of exactly 2048 unique lowercase ASCII words"; `WordlistOK` captures
exactly those properties.
-/

/-- A char of a wordlist word: lowercase ASCII letter. -/
def isLowerAlpha (c : Char) : Bool := 97 ≤ c.toNat && c.toNat ≤ 122

/-- Modelled from the spec: the properties of the missing
`BIP39_WORDLIST` ("a fixed, ordered sequence of exactly 2048 unique
lowercase ASCII words"). -/
def WordlistOK (wl : List Str) : Prop :=
  wl.length = 2048 ∧ wl.Nodup ∧ ∀ w ∈ wl, w ≠ [] ∧ ∀ c ∈ w, isLowerAlpha c

/-- The value a TS out-of-bounds read would interpolate; never reached for an
in-range index (see the C9 theorem). -/
def undefStr : Str := "undefined".data

/-- `generateWords`'s checksum steps: 16 entropy bytes, `String.fromCharCode`,
`sha256Hash`, first digest byte, top nibble. -/
def checksumOf (entropy : Nat) : Nat :=
  ((sha256Hash (bigIntToBytes entropy)).headD 0) >>> 4

/-- Index-extraction loop of `generateWords`: take the low 11 bits, `unshift`,
shift right by 11; after 12 iterations the list is most-significant slice
first. -/
def genIdxLoop : Nat → Nat → List Nat → List Nat
  | 0, _, acc => acc
  | n + 1, packed, acc => genIdxLoop n (packed >>> 11) ((packed &&& 0x7ff) :: acc)

/-- `generateWords` from `src/ipv6.ts`: 12 words indexed by the 11-bit slices
of `(entropy << 4) | checksum`, most-significant slice first. -/
def generateWords (wl : List Str) (entropy : Nat) : List Str :=
  let checksum := checksumOf entropy
  let entropyWithChecksum := (entropy <<< 4) ||| checksum
  (genIdxLoop 12 entropyWithChecksum []).map (fun i => wl.getD i undefStr)

/-- `capitalize` from `src/ipv6.ts`. -/
def capitalize : Str → Str
  | [] => []
  | c :: rest => toUpperChar c :: rest

/-- One 4-word phrase of `formatSentence`. -/
def phrase (words : List Str) (i : Nat) : Str :=
  capitalize (words.getD i undefStr) ++ [' '] ++ words.getD (i + 1) undefStr ++ [' '] ++
    words.getD (i + 2) undefStr ++ [' '] ++ words.getD (i + 3) undefStr

/-- `formatSentence` from `src/ipv6.ts`: three 4-word phrases, first word of
each capitalized, joined by `". "` with a final `"."`. -/
def formatSentence (words : List Str) : Str :=
  List.intercalate ('.' :: [' ']) [phrase words 0, phrase words 4, phrase words 8] ++ ['.']

/-- `extractWords` from `src/ipv6.ts`: strip periods, trim, split on
whitespace, lowercase, then keep tokens found in the wordlist (directly, or
with a trailing `s` stripped). -/
def extractWords (wl : List Str) (sentence : Str) : List Str :=
  let allWords := (splitWs (jsTrim (sentence.filter (fun c => c ≠ '.')))).map jsToLower
  allWords.filterMap fun w =>
    if wl.contains w then some w
    else if w.getLast? = some 's' && wl.contains w.dropLast then some w.dropLast
    else none

/-- `BIP39_WORDLIST.indexOf(w)`, with `none` for `-1`. -/
def wlIdxOfGo : List Str → Str → Nat → Option Nat
  | [], _, _ => none
  | x :: xs, w, k => if x = w then some k else wlIdxOfGo xs w (k + 1)

def wlIdxOf (wl : List Str) (w : Str) : Option Nat := wlIdxOfGo wl w 0

/-- Index-folding loop of `getEntropyFromWords`: `(acc << 11) | index`,
throwing on the first word absent from the wordlist. -/
def foldIdxs (wl : List Str) : List Str → Nat → Except Err Nat
  | [], acc => .ok acc
  | w :: ws, acc =>
    match wlIdxOf wl w with
    | none => .error .bipInvalidWord
    | some i => foldIdxs wl ws ((acc <<< 11) ||| i)

/-- `getEntropyFromWords` from `src/ipv6.ts`: require 12 words, fold their
indices, split off the low 4 checksum bits, recompute and compare. -/
def getEntropyFromWords (wl : List Str) (words : List Str) : Except Err Nat :=
  if words.length ≠ 12 then .error .bipInvalidSentence
  else
    match foldIdxs wl words 0 with
    | .error e => .error e
    | .ok bitString =>
      let checksum := bitString &&& 0xf
      let entropy := bitString >>> 4
      let computedChecksum := ((sha256Hash (bigIntToBytes entropy)).headD 0) >>> 4
      if checksum ≠ computedChecksum then .error .bipChecksumInvalid
      else .ok entropy

/-- `ip6ToSentence` from `src/ipv6.ts`. -/
def ip6ToSentence (wl : List Str) (ip : Str) : Except Err Str :=
  if ip = [] then .error .ipv6NotString
  else
    match ip6ToBigInt ip with
    | .error e => .error e
    | .ok entropy => .ok (formatSentence (generateWords wl entropy))

/-- `sentenceToIp6` from `src/ipv6.ts`. -/
def sentenceToIp6 (wl : List Str) (sentence : Str) : Except Err Str :=
  if sentence = [] then .error .bipNotString
  else
    match getEntropyFromWords wl (extractWords wl sentence) with
    | .error e => .error e
    | .ok entropy => .ok (bigIntToIp6 entropy)

/-!
A concrete wordlist witnessing `WordlistOK`, used by the closed witness
theorems: word `n` is the 3-letter base-26 rendering of `n`.
-/

/-- Word `n` of the witness wordlist: three lowercase letters, base 26. -/
def mkWord (n : Nat) : Str :=
  [Char.ofNat (97 + n / 676 % 26), Char.ofNat (97 + n / 26 % 26), Char.ofNat (97 + n % 26)]

def myWordlist : List Str := (List.range 2048).map mkWord

/-! Character-level facts. -/

theorem charOfNat_toNat {n : Nat} (h : n < 55296) : (Char.ofNat n).toNat = n := by
  unfold Char.ofNat
  split
  · rfl
  · exact absurd (Or.inl h) (by assumption)

theorem hexChar_toNat {d : Nat} (h : d < 16) :
    (hexChar d).toNat = if d < 10 then 48 + d else 87 + d := by
  unfold hexChar
  split <;> exact charOfNat_toNat (by omega)

theorem isHexDigit_hexChar {d : Nat} (h : d < 16) : isHexDigit (hexChar d) = true := by
  have := hexChar_toNat h
  unfold isHexDigit
  split at this <;> simp [this] <;> omega

theorem hexVal_hexChar {d : Nat} (h : d < 16) : hexVal (hexChar d) = d := by
  unfold hexVal
  rw [hexChar_toNat h]
  split_ifs <;> omega

theorem isHexDigit_toNat {c : Char} (h : isHexDigit c = true) :
    (48 ≤ c.toNat ∧ c.toNat ≤ 57) ∨ (97 ≤ c.toNat ∧ c.toNat ≤ 102) := by
  unfold isHexDigit at h
  simp only [Bool.or_eq_true, Bool.and_eq_true, decide_eq_true_eq] at h
  omega

theorem notWs_of_hexish {c : Char} (h : 48 ≤ c.toNat ∧ c.toNat ≤ 58 ∨ 97 ≤ c.toNat ∧ c.toNat ≤ 122) :
    isJsWs c = false := by
  unfold isJsWs
  have : c.toNat ∉ [9, 10, 11, 12, 13, 32, 160, 5760, 8192, 8193, 8194, 8195, 8196, 8197,
      8198, 8199, 8200, 8201, 8202, 8232, 8233, 8239, 8287, 12288, 65279] := by
    simp only [List.mem_cons, List.not_mem_nil, or_false]
    omega
  simpa using this

theorem notUpper_of_hexish {c : Char} (h : 48 ≤ c.toNat ∧ c.toNat ≤ 58 ∨ 97 ≤ c.toNat ∧ c.toNat ≤ 122) :
    ¬(65 ≤ c.toNat ∧ c.toNat ≤ 90) := by omega

theorem isHexDigit_ne_colon {c : Char} (h : isHexDigit c = true) : c ≠ ':' := by
  intro hc
  subst hc
  simp [isHexDigit] at h

/-! `toHexString` facts. -/

theorem toHexGo_zero (f : Nat) (acc : Str) : toHexGo f 0 acc = acc := by
  cases f <;> simp [toHexGo]

theorem toHexGo_len_ge : ∀ (f m : Nat) (acc : Str), acc.length ≤ (toHexGo f m acc).length := by
  intro f
  induction f with
  | zero => intro m acc; simp [toHexGo]
  | succ f ih =>
    intro m acc
    unfold toHexGo
    split
    · exact Nat.le_refl _
    · exact Nat.le_trans (by simp) (ih (m / 16) (hexChar (m % 16) :: acc))

theorem toHexGo_len_le : ∀ (f m : Nat) (acc : Str) (j : Nat), m < 16 ^ j →
    (toHexGo f m acc).length ≤ j + acc.length := by
  intro f
  induction f with
  | zero => intro m acc j _; simp [toHexGo]
  | succ f ih =>
    intro m acc j hj
    unfold toHexGo
    split
    · omega
    · rename_i hm
      have hj0 : j ≠ 0 := by
        intro h0
        rw [h0] at hj
        simp at hj
        omega
      obtain ⟨j', rfl⟩ : ∃ j', j = j' + 1 := ⟨j - 1, by omega⟩
      have hdiv : m / 16 < 16 ^ j' := by
        rw [Nat.pow_succ] at hj
        exact (Nat.div_lt_iff_lt_mul (by norm_num)).mpr hj
      calc (toHexGo f (m / 16) (hexChar (m % 16) :: acc)).length
          ≤ j' + (hexChar (m % 16) :: acc).length := ih (m / 16) _ j' hdiv
        _ = j' + 1 + acc.length := by simp; omega
        _ = j' + 1 + acc.length := rfl

theorem toHexGo_chars : ∀ (f m : Nat) (acc : Str), (∀ c ∈ acc, isHexDigit c = true) →
    ∀ c ∈ toHexGo f m acc, isHexDigit c = true := by
  intro f
  induction f with
  | zero => intro m acc hacc; simpa [toHexGo] using hacc
  | succ f ih =>
    intro m acc hacc
    unfold toHexGo
    split
    · exact hacc
    · refine ih (m / 16) _ ?_
      intro c hc
      rcases List.mem_cons.mp hc with rfl | hc
      · exact isHexDigit_hexChar (Nat.mod_lt _ (by norm_num))
      · exact hacc c hc

theorem toHexGo_spec : ∀ (f m : Nat) (acc : Str) (a : Nat), m ≤ f → 0 < m →
    ∃ k, 0 < k ∧
      List.foldl (fun a c => a * 16 + hexVal c) a (toHexGo f m acc) =
        List.foldl (fun a c => a * 16 + hexVal c) (a * 16 ^ k + m) acc := by
  intro f
  induction f with
  | zero => intro m acc a hf hm; omega
  | succ f ih =>
    intro m acc a hf hm
    unfold toHexGo
    rw [if_neg (by omega)]
    by_cases hdiv : m / 16 = 0
    · rw [hdiv, toHexGo_zero]
      refine ⟨1, Nat.one_pos, ?_⟩
      have hm16 : m < 16 := by omega
      rw [List.foldl_cons, hexVal_hexChar (Nat.mod_lt _ (by norm_num))]
      have : m % 16 = m := Nat.mod_eq_of_lt hm16
      rw [this]
      norm_num
    · have hle : m / 16 ≤ f := by
        have := Nat.div_lt_self hm (by norm_num : 1 < 16)
        omega
      obtain ⟨k, hk, hfold⟩ := ih (m / 16) (hexChar (m % 16) :: acc) a hle (Nat.pos_of_ne_zero hdiv)
      refine ⟨k + 1, by omega, ?_⟩
      rw [hfold, List.foldl_cons, hexVal_hexChar (Nat.mod_lt _ (by norm_num))]
      congr 1
      have : (a * 16 ^ k + m / 16) * 16 + m % 16 = a * 16 ^ (k + 1) + (16 * (m / 16) + m % 16) := by ring
      rw [this]
      omega

theorem parseHex_toHexString (n : Nat) : parseHex (toHexString n) = n := by
  unfold toHexString parseHex
  split
  · rename_i h
    subst h
    decide
  · rename_i h
    obtain ⟨k, _, hfold⟩ := toHexGo_spec n n [] 0 (Nat.le_refl n) (Nat.pos_of_ne_zero h)
    simpa using hfold

theorem toHexString_ne_nil (n : Nat) : toHexString n ≠ [] := by
  unfold toHexString
  split
  · simp
  · rename_i h
    obtain ⟨n', rfl⟩ : ∃ n', n = n' + 1 := ⟨n - 1, by omega⟩
    intro hnil
    have h1 : (toHexGo (n' + 1) (n' + 1) []).length ≥ 1 := by
      unfold toHexGo
      rw [if_neg (by omega)]
      have := toHexGo_len_ge n' ((n' + 1) / 16) [hexChar ((n' + 1) % 16)]
      simpa using this
    rw [hnil] at h1
    simp at h1

theorem toHexString_chars (n : Nat) : ∀ c ∈ toHexString n, isHexDigit c = true := by
  unfold toHexString
  split
  · intro c hc
    simp at hc
    subst hc
    decide
  · exact toHexGo_chars n n [] (by simp)

theorem toHexString_len_le (n : Nat) (h : n < 65536) : (toHexString n).length ≤ 4 := by
  unfold toHexString
  split
  · simp
  · have := toHexGo_len_le n n [] 4 (by norm_num; omega)
    simpa using this

theorem isHexGroup_toHexString (n : Nat) (h : n < 65536) : isHexGroup (toHexString n) = true := by
  unfold isHexGroup
  have h1 : 1 ≤ (toHexString n).length := by
    have := toHexString_ne_nil n
    cases hx : toHexString n with
    | nil => exact absurd hx this
    | cons a l => simp
  simp only [Bool.and_eq_true, decide_eq_true_eq, List.all_eq_true]
  exact ⟨⟨h1, toHexString_len_le n h⟩, fun c hc => toHexString_chars n c hc⟩

/-! Split / intercalate facts. -/

theorem intercalate_cons_cons (s a b : Str) (l : List Str) :
    List.intercalate s (a :: b :: l) = a ++ s ++ List.intercalate s (b :: l) := by
  simp [List.intercalate, List.append_assoc]

theorem intercalate_singleton (s a : Str) : List.intercalate s [a] = a := by
  simp [List.intercalate]

theorem splitCharGo_append_free (sep : Char) :
    ∀ (g : Str), (∀ c ∈ g, c ≠ sep) → ∀ (s acc : Str),
      splitCharGo sep (g ++ s) acc = splitCharGo sep s (g.reverse ++ acc) := by
  intro g
  induction g with
  | nil => intro _ s acc; simp
  | cons c g ih =>
    intro hg s acc
    have hc : c ≠ sep := hg c (List.mem_cons_self c g)
    simp only [List.cons_append, splitCharGo, if_neg hc]
    show splitCharGo sep (g ++ s) (c :: acc) = splitCharGo sep s ((c :: g).reverse ++ acc)
    rw [ih (fun x hx => hg x (List.mem_cons_of_mem c hx)) s (c :: acc)]
    congr 1
    simp

theorem splitChar_intercalate (sep : Char) :
    ∀ (gs : List Str) (g : Str), (∀ x ∈ g :: gs, ∀ c ∈ x, c ≠ sep) →
      splitChar sep (List.intercalate [sep] (g :: gs)) = g :: gs := by
  intro gs
  induction gs with
  | nil =>
    intro g hg
    rw [intercalate_singleton]
    unfold splitChar
    have := splitCharGo_append_free sep g (hg g (by simp)) [] []
    simpa [splitCharGo] using this
  | cons g' gs ih =>
    intro g hg
    rw [intercalate_cons_cons]
    unfold splitChar
    rw [List.append_assoc, splitCharGo_append_free sep g (hg g (by simp)) _ []]
    have hsep : splitCharGo sep (sep :: List.intercalate [sep] (g' :: gs)) (g.reverse ++ []) =
        (g.reverse ++ []).reverse :: splitCharGo sep (List.intercalate [sep] (g' :: gs)) [] := by
      simp [splitCharGo]
    simp only [List.singleton_append, hsep]
    have ihx := ih g' (fun x hx => hg x (List.mem_cons_of_mem g hx))
    unfold splitChar at ihx
    rw [ihx]
    simp

/-- `hasSS s` holds when `s` contains two adjacent colons. -/
def hasSS : Str → Bool
  | [] => false
  | [_] => false
  | c1 :: c2 :: rest => (decide (c1 = ':') && decide (c2 = ':')) || hasSS (c2 :: rest)

theorem splitSSGo_no : ∀ (s acc : Str), hasSS s = false → splitSSGo s acc = [acc.reverse ++ s] := by
  intro s
  induction s using hasSS.induct with
  | case1 => intro acc _; simp [splitSSGo]
  | case2 c => intro acc _; simp [splitSSGo]
  | case3 c1 c2 rest ih =>
    intro acc h
    unfold hasSS at h
    simp only [Bool.or_eq_false_iff, Bool.and_eq_false_iff, decide_eq_false_iff_not] at h
    unfold splitSSGo
    rw [if_neg (by rcases h.1 with hne | hne <;> exact fun hand => hne (by simp [hand.1, hand.2])),
      ih (c1 :: acc) h.2]
    simp

theorem hasSS_append_free : ∀ (g : Str), (∀ c ∈ g, c ≠ ':') → ∀ (s : Str),
    hasSS (g ++ s) = hasSS s := by
  intro g
  induction g with
  | nil => intro _ s; simp
  | cons c g ih =>
    intro hg s
    have hc : c ≠ ':' := hg c (List.mem_cons_self c g)
    have ih' := ih fun x hx => hg x (List.mem_cons_of_mem c hx)
    cases g with
    | nil =>
      cases s with
      | nil => simp [hasSS]
      | cons d t =>
        show hasSS (c :: d :: t) = hasSS (d :: t)
        simp only [hasSS, decide_eq_false hc, Bool.false_and, Bool.false_or]
    | cons e g' =>
      show hasSS (c :: e :: (g' ++ s)) = hasSS s
      simp only [hasSS, decide_eq_false hc, Bool.false_and, Bool.false_or]
      exact ih' s

theorem intercalate_head_tail (sep g : Str) (gs : List Str) :
    ∃ t, List.intercalate sep (g :: gs) = g ++ t := by
  cases gs with
  | nil => exact ⟨[], by rw [intercalate_singleton]; simp⟩
  | cons g' gs => exact ⟨sep ++ List.intercalate sep (g' :: gs), by rw [intercalate_cons_cons]; simp⟩

theorem hasSS_intercalate : ∀ (gs : List Str) (g : Str),
    (∀ x ∈ g :: gs, x ≠ [] ∧ ∀ c ∈ x, c ≠ ':') →
    hasSS (List.intercalate [':'] (g :: gs)) = false := by
  intro gs
  induction gs with
  | nil =>
    intro g hg
    rw [intercalate_singleton]
    have := hasSS_append_free g (hg g (by simp)).2 []
    simpa using this
  | cons g' gs ih =>
    intro g hg
    rw [intercalate_cons_cons, List.append_assoc, hasSS_append_free g (hg g (by simp)).2]
    obtain ⟨t, ht⟩ := intercalate_head_tail [':'] g' gs
    have hg' : g' ≠ [] := (hg g' (by simp)).1
    obtain ⟨d, g'', rfl⟩ : ∃ d g'', g' = d :: g'' := by
      cases g' with
      | nil => exact absurd rfl hg'
      | cons d g'' => exact ⟨d, g'', rfl⟩
    have hd : d ≠ ':' := (hg (d :: g'') (by simp)).2 d (by simp)
    rw [List.singleton_append, ht]
    show hasSS (':' :: d :: (g'' ++ t)) = false
    unfold hasSS
    rw [decide_eq_false hd]
    have : hasSS (d :: (g'' ++ t)) = hasSS ((d :: g'') ++ t) := by simp
    rw [this, ← ht, ih (d :: g'') (fun x hx => hg x (List.mem_cons_of_mem g hx))]
    simp

theorem splitSS_no_doublecolon (s : Str) (h : hasSS s = false) : splitSS s = [s] := by
  unfold splitSS
  rw [splitSSGo_no s [] h]
  simp

/-! Whitespace-split facts. -/

theorem splitWsGo_append_free : ∀ (t : Str), (∀ c ∈ t, isJsWs c = false) →
    ∀ (s acc : Str) (b : Bool),
      splitWsGo (t ++ s) acc b = splitWsGo s (t.reverse ++ acc) (b && t.isEmpty) := by
  intro t
  induction t with
  | nil => intro _ s acc b; simp
  | cons c t ih =>
    intro ht s acc b
    have hc : isJsWs c = false := ht c (List.mem_cons_self c t)
    simp only [List.cons_append, splitWsGo, hc, Bool.false_eq_true, if_false]
    show splitWsGo (t ++ s) (c :: acc) false = splitWsGo s ((c :: t).reverse ++ acc) (b && (c :: t).isEmpty)
    rw [ih (fun x hx => ht x (List.mem_cons_of_mem c hx)) s (c :: acc) false]
    simp

theorem splitWsGo_space (s acc : Str) :
    splitWsGo (' ' :: s) acc false = acc.reverse :: splitWsGo s [] true := by
  simp [splitWsGo, isJsWs]

theorem splitWsGo_true_false (c : Char) (hc : isJsWs c = false) (s : Str) :
    splitWsGo (c :: s) [] true = splitWsGo (c :: s) [] false := by
  simp [splitWsGo, hc]

theorem splitWs_intercalate_space : ∀ (ts : List Str) (t : Str),
    (∀ x ∈ t :: ts, x ≠ [] ∧ ∀ c ∈ x, isJsWs c = false) →
    splitWs (List.intercalate [' '] (t :: ts)) = t :: ts := by
  intro ts
  induction ts with
  | nil =>
    intro t ht
    rw [intercalate_singleton]
    unfold splitWs
    have := splitWsGo_append_free t (ht t (by simp)).2 [] [] false
    simpa [splitWsGo] using this
  | cons t' ts ih =>
    intro t ht
    rw [intercalate_cons_cons]
    unfold splitWs
    rw [List.append_assoc, splitWsGo_append_free t (ht t (by simp)).2 _ [] false]
    simp only [List.append_nil, List.singleton_append, Bool.false_and]
    rw [splitWsGo_space]
    obtain ⟨u, hu⟩ := intercalate_head_tail [' '] t' ts
    have ht' : t' ≠ [] := (ht t' (by simp)).1
    obtain ⟨d, t'', rfl⟩ : ∃ d t'', t' = d :: t'' := by
      cases t' with
      | nil => exact absurd rfl ht'
      | cons d t'' => exact ⟨d, t'', rfl⟩
    have hd : isJsWs d = false := (ht (d :: t'') (by simp)).2 d (by simp)
    have hflip : splitWsGo (List.intercalate [' '] ((d :: t'') :: ts)) [] true
        = splitWsGo (List.intercalate [' '] ((d :: t'') :: ts)) [] false := by
      rw [hu, List.cons_append]
      exact splitWsGo_true_false d hd (t'' ++ u)
    rw [List.reverse_reverse, hflip]
    have ihx := ih (d :: t'') (fun x hx => ht x (List.mem_cons_of_mem t hx))
    unfold splitWs at ihx
    rw [ihx]

/-! Trim / lowercase invariance. -/

theorem jsTrim_eq_self (s : Str)
    (h1 : ∀ c, s.head? = some c → isJsWs c = false)
    (h2 : ∀ c, s.getLast? = some c → isJsWs c = false) : jsTrim s = s := by
  unfold jsTrim
  cases s with
  | nil => simp
  | cons a t =>
    rw [List.dropWhile_cons, h1 a rfl]
    simp only [Bool.false_eq_true, if_false]
    cases hrev : (a :: t).reverse with
    | nil => simp at hrev
    | cons b u =>
      have hb : (a :: t).getLast? = some b := by
        rw [← List.head?_reverse, hrev]
        rfl
      rw [List.dropWhile_cons, h2 b hb]
      simp only [Bool.false_eq_true, if_false]
      rw [← hrev, List.reverse_reverse]

theorem jsToLower_eq_self (s : Str) (h : ∀ c ∈ s, ¬(65 ≤ c.toNat ∧ c.toNat ≤ 90)) :
    jsToLower s = s := by
  unfold jsToLower
  have hid : ∀ c ∈ s, (if 65 ≤ c.toNat ∧ c.toNat ≤ 90 then Char.ofNat (c.toNat + 32) else c) = id c :=
    fun c hc => by rw [if_neg (h c hc)]; rfl
  rw [List.map_congr_left hid, List.map_id]

/-! Numeric recomposition for `ip6ToBigInt ∘ bigIntToIp6`. -/

theorem shiftLeft16_lor (a x : Nat) (h : x < 65536) : (a <<< 16) ||| x = a * 65536 + x := by
  rw [Nat.shiftLeft_eq]
  have h2 : (2 : Nat) ^ 16 = 65536 := by norm_num
  rw [h2, Nat.mul_comm a 65536, ← Nat.mul_add_lt_is_or (by omega : x < 2 ^ 16) a]

theorem foldGroups_all_ok (gs : List Str) (hgs : ∀ g ∈ gs, isHexGroup g = true) :
    ∀ acc, foldGroups gs acc = .ok (gs.foldl (fun a g => (a <<< 16) ||| parseHex g) acc) := by
  induction gs with
  | nil => intro acc; rfl
  | cons g gs ih =>
    intro acc
    unfold foldGroups
    rw [if_pos (hgs g (List.mem_cons_self g gs)), ih (fun x hx => hgs x (List.mem_cons_of_mem g hx))]
    rfl

theorem bigIntToIp6Go_eq_map : ∀ (n big : Nat) (acc : List Str),
    bigIntToIp6Go n big acc =
      ((List.range n).map fun k => toHexString ((big >>> (16 * k)) &&& 0xffff)).reverse ++ acc := by
  intro n
  induction n with
  | zero => intro big acc; simp [bigIntToIp6Go]
  | succ n ih =>
    intro big acc
    unfold bigIntToIp6Go
    rw [ih (big >>> 16), List.range_succ_eq_map, List.map_cons, List.map_map,
      List.reverse_cons, List.append_assoc, List.singleton_append]
    have hm : List.map (fun k => toHexString ((big >>> 16) >>> (16 * k) &&& 0xffff)) (List.range n) =
        List.map ((fun k => toHexString (big >>> (16 * k) &&& 0xffff)) ∘ (· + 1)) (List.range n) := by
      apply List.map_congr_left
      intro k _
      simp only [Function.comp_apply]
      rw [← Nat.shiftRight_add]
      have h16 : 16 + 16 * k = 16 * (k + 1) := by ring
      rw [h16]
    rw [hm]
    simp [Function.comp_def, Nat.succ_eq_add_one]

theorem and_ffff_eq_mod (x : Nat) : x &&& 0xffff = x % 65536 := by
  have := Nat.and_pow_two_sub_one_eq_mod x 16
  norm_num at this
  exact this

theorem shiftRight16_eq_div (x k : Nat) : x >>> (16 * k) = x / 65536 ^ k := by
  rw [Nat.shiftRight_eq_div_pow]
  congr 1
  rw [Nat.pow_mul]

theorem foldl_hex_digits : ∀ (n big acc : Nat),
    List.foldl (fun a g => (a <<< 16) ||| parseHex g) acc
      (((List.range n).map fun k => toHexString ((big >>> (16 * k)) &&& 0xffff)).reverse) =
      acc * 65536 ^ n + big % 65536 ^ n := by
  intro n
  induction n with
  | zero => intro big acc; simp [Nat.mod_one]
  | succ n ih =>
    intro big acc
    rw [List.range_succ, List.map_append, List.reverse_append]
    simp only [List.map_cons, List.map_nil, List.reverse_cons, List.reverse_nil,
      List.nil_append, List.singleton_append, List.foldl_cons]
    rw [ih big]
    have hlt : (big >>> (16 * n)) &&& 0xffff < 65536 := by
      rw [and_ffff_eq_mod]
      exact Nat.mod_lt _ (by norm_num)
    rw [parseHex_toHexString, shiftLeft16_lor _ _ hlt]
    rw [and_ffff_eq_mod, shiftRight16_eq_div]
    have hmod : big % 65536 ^ (n + 1) = big % 65536 ^ n + 65536 ^ n * (big / 65536 ^ n % 65536) := by
      rw [Nat.pow_succ, Nat.mod_mul]
    rw [hmod]
    ring

/-! `ip6ToBigInt ∘ bigIntToIp6`. -/

theorem mem_intercalate_cons : ∀ (gs : List Str) (g sep : Str) (c : Char),
    c ∈ List.intercalate sep (g :: gs) → c ∈ g ∨ c ∈ sep ∨ ∃ x ∈ gs, c ∈ x := by
  intro gs
  induction gs with
  | nil =>
    intro g sep c hc
    rw [intercalate_singleton] at hc
    exact Or.inl hc
  | cons g' gs ih =>
    intro g sep c hc
    rw [intercalate_cons_cons] at hc
    rcases List.mem_append.mp hc with hc | hc
    · rcases List.mem_append.mp hc with hc | hc
      · exact Or.inl hc
      · exact Or.inr (Or.inl hc)
    · rcases ih g' sep c hc with hc | hc | ⟨x, hx, hc⟩
      · exact Or.inr (Or.inr ⟨g', by simp, hc⟩)
      · exact Or.inr (Or.inl hc)
      · exact Or.inr (Or.inr ⟨x, by simp [hx], hc⟩)

theorem mem_of_head?_eq (s : Str) (c : Char) (h : s.head? = some c) : c ∈ s := by
  cases s with
  | nil => simp at h
  | cons a t =>
    simp at h
    subst h
    exact List.mem_cons_self a t

theorem jsTrim_eq_self_of_all (s : Str) (h : ∀ c ∈ s, isJsWs c = false) : jsTrim s = s := by
  refine jsTrim_eq_self s (fun c hc => h c (mem_of_head?_eq s c hc)) (fun c hc => ?_)
  refine h c ?_
  rw [← List.head?_reverse] at hc
  exact (List.mem_reverse).mp (mem_of_head?_eq _ c hc)

theorem ip6ToBigInt_bigIntToIp6 (v : Nat) : ip6ToBigInt (bigIntToIp6 v) = .ok (v % 2 ^ 128) := by
  have hGdef : bigIntToIp6 v =
      List.intercalate [':']
        (((List.range 8).map fun k => toHexString ((v >>> (16 * k)) &&& 0xffff)).reverse) := by
    unfold bigIntToIp6
    rw [bigIntToIp6Go_eq_map]
    simp
  set G := ((List.range 8).map fun k => toHexString ((v >>> (16 * k)) &&& 0xffff)).reverse with hGset
  have hGmem : ∀ g ∈ G, ∃ d, d < 65536 ∧ g = toHexString d := by
    intro g hg
    rw [hGset, List.mem_reverse, List.mem_map] at hg
    obtain ⟨k, _, rfl⟩ := hg
    refine ⟨(v >>> (16 * k)) &&& 0xffff, ?_, rfl⟩
    rw [and_ffff_eq_mod]
    exact Nat.mod_lt _ (by norm_num)
  have hGne : ∀ g ∈ G, g ≠ [] := by
    intro g hg
    obtain ⟨d, _, rfl⟩ := hGmem g hg
    exact toHexString_ne_nil d
  have hGchars : ∀ g ∈ G, ∀ c ∈ g, isHexDigit c = true := by
    intro g hg
    obtain ⟨d, _, rfl⟩ := hGmem g hg
    exact toHexString_chars d
  have hGcolon : ∀ g ∈ G, ∀ c ∈ g, c ≠ ':' := by
    intro g hg c hc
    exact isHexDigit_ne_colon (hGchars g hg c hc)
  have hGhex : ∀ g ∈ G, isHexGroup g = true := by
    intro g hg
    obtain ⟨d, hd, rfl⟩ := hGmem g hg
    exact isHexGroup_toHexString d hd
  have hGlen : G.length = 8 := by rw [hGset]; simp
  obtain ⟨g0, G', hG⟩ : ∃ g0 G', G = g0 :: G' := by
    cases hGx : G with
    | nil => rw [hGx] at hGlen; simp at hGlen
    | cons a l => exact ⟨a, l, rfl⟩
  have hchars : ∀ c ∈ List.intercalate [':'] G, isHexDigit c = true ∨ c = ':' := by
    intro c hc
    rw [hG] at hc
    rcases mem_intercalate_cons G' g0 [':'] c hc with hc | hc | ⟨x, hx, hc⟩
    · exact Or.inl (hGchars g0 (hG ▸ List.mem_cons_self g0 G') c hc)
    · simp at hc
      exact Or.inr hc
    · exact Or.inl (hGchars x (hG ▸ List.mem_cons_of_mem g0 hx) c hc)
  have hcharsNat : ∀ c ∈ List.intercalate [':'] G,
      48 ≤ c.toNat ∧ c.toNat ≤ 58 ∨ 97 ≤ c.toNat ∧ c.toNat ≤ 122 := by
    intro c hc
    rcases hchars c hc with hc' | rfl
    · rcases isHexDigit_toNat hc' with h | h <;> omega
    · left
      refine ⟨by decide, by decide⟩
  have hsne : List.intercalate [':'] G ≠ [] := by
    rw [hG]
    obtain ⟨t, ht⟩ := intercalate_head_tail [':'] g0 G'
    rw [ht]
    have hg0 : g0 ≠ [] := hGne g0 (hG ▸ List.mem_cons_self g0 G')
    cases g0 with
    | nil => exact absurd rfl hg0
    | cons a u => simp
  have hlow : jsToLower (List.intercalate [':'] G) = List.intercalate [':'] G :=
    jsToLower_eq_self _ (fun c hc => notUpper_of_hexish (hcharsNat c hc))
  have htrim : jsTrim (List.intercalate [':'] G) = List.intercalate [':'] G :=
    jsTrim_eq_self_of_all _ (fun c hc => notWs_of_hexish (hcharsNat c hc))
  have hss : splitSS (List.intercalate [':'] G) = [List.intercalate [':'] G] := by
    refine splitSS_no_doublecolon _ ?_
    rw [hG]
    exact hasSS_intercalate G' g0
      (fun x hx => ⟨hGne x (hG ▸ hx), hGcolon x (hG ▸ hx)⟩)
  have hsc : splitChar ':' (List.intercalate [':'] G) = G := by
    rw [hG]
    exact splitChar_intercalate ':' G' g0 (fun x hx => hGcolon x (hG ▸ hx))
  have hfilter : G.filter (fun g => !g.isEmpty) = G := by
    refine List.filter_eq_self.mpr ?_
    intro g hg
    have := hGne g hg
    cases g with
    | nil => exact absurd rfl this
    | cons a u => simp
  have hfold : foldGroups G 0 = .ok (v % 2 ^ 128) := by
    rw [foldGroups_all_ok G hGhex 0, hGset, foldl_hex_digits]
    norm_num
  rw [hGdef]
  unfold ip6ToBigInt
  rw [if_neg hsne]
  simp only [hlow, htrim, if_neg hsne, hss, hsc, hfilter, hfold, hGlen]
  simp [hsne, hsc, hfilter, hGlen, hfold]

theorem digit_mod_high (v k : Nat) (hk : k < 8) :
    ((v % 2 ^ 128) >>> (16 * k)) &&& 0xffff = (v >>> (16 * k)) &&& 0xffff := by
  rw [and_ffff_eq_mod, and_ffff_eq_mod, shiftRight16_eq_div, shiftRight16_eq_div]
  have hk8 : k + (8 - k) = 8 := by omega
  have h8 : (2 : Nat) ^ 128 = 65536 ^ k * 65536 ^ (8 - k) := by
    rw [← pow_add, hk8]
    norm_num
  rw [h8, Nat.mod_mul_right_div_self]
  exact Nat.mod_mod_of_dvd _ (dvd_pow_self 65536 (by omega : 8 - k ≠ 0))

/-- Claim C10: `bigIntToIp6` is total on non-negative bigints and renders only
the low 128 bits, so parsing its output returns `v mod 2^128`: out-of-range
input is silently truncated, never rejected. -/
theorem claim_C10 (v : Nat) :
    bigIntToIp6 v = bigIntToIp6 (v % 2 ^ 128) ∧
      ip6ToBigInt (bigIntToIp6 v) = .ok (v % 2 ^ 128) := by
  constructor
  · unfold bigIntToIp6
    rw [bigIntToIp6Go_eq_map, bigIntToIp6Go_eq_map]
    congr 2
    congr 1
    apply List.map_congr_left
    intro k hk
    rw [digit_mod_high v k (List.mem_range.mp hk)]
  · exact ip6ToBigInt_bigIntToIp6 v

/-- Claim C2: for every `v` with `0 ≤ v < 2^128`,
`ip6ToBigInt (bigIntToIp6 v) = v`. -/
theorem claim_C2 (v : Nat) (h : v < 2 ^ 128) : ip6ToBigInt (bigIntToIp6 v) = .ok v := by
  have hx := ip6ToBigInt_bigIntToIp6 v
  rwa [Nat.mod_eq_of_lt h] at hx

theorem claim_C2_witness : (3 : Nat) < 2 ^ 128 ∧ ip6ToBigInt (bigIntToIp6 3) = .ok 3 :=
  ⟨by norm_num, claim_C2 3 (by norm_num)⟩

/-- Claim C4 (failing input): the source parses `"1:2:3"` — no `"::"`,
only 3 groups — successfully, by implicitly zero-padding it to
`1:2:3:0:0:0:0:0`, instead of rejecting it with an incorrect-group-count
error as the spec requires. -/
theorem claim_C4_code_bug :
    ip6ToBigInt (("1:2:3").data) = .ok 5192455318486633616049570941239296 := by
  rfl

/-! Byte extraction (`bigIntToBytes`). -/

theorem and_ff_eq_mod (x : Nat) : x &&& 0xff = x % 256 := by
  have hx := Nat.and_pow_two_sub_one_eq_mod x 8
  norm_num at hx
  exact hx

theorem bigIntToBytesGo_length : ∀ (n big : Nat), (bigIntToBytesGo n big).length = n := by
  intro n
  induction n with
  | zero => intro big; rfl
  | succ n ih => intro big; simp [bigIntToBytesGo, ih]

theorem bigIntToBytesGo_getD : ∀ (n i big : Nat), i < n →
    (bigIntToBytesGo n big).getD i 0 = (big >>> (8 * i)) &&& 0xff := by
  intro n
  induction n with
  | zero => intro i big h; omega
  | succ n ih =>
    intro i big h
    cases i with
    | zero => simp [bigIntToBytesGo]
    | succ i =>
      have := ih i (big >>> 8) (by omega)
      simp only [bigIntToBytesGo, List.getD_cons_succ, this]
      rw [← Nat.shiftRight_add]
      congr 2
      ring

/-- Claim C3 (amended): `bigIntToBytes` returns exactly 16 bytes in
LITTLE-endian order: byte `i` is `(e >>> (8*i)) & 0xff`, so byte 0 is the
least-significant 8 bits and byte 15 the most-significant 8 bits. -/
theorem claim_C3 (e : Nat) (he : e < 2 ^ 128) :
    (bigIntToBytes e).length = 16 ∧
      (∀ i, i < 16 → (bigIntToBytes e).getD i 0 = (e >>> (8 * i)) &&& 0xff) ∧
      (bigIntToBytes e).getD 0 0 = e % 256 ∧
      (bigIntToBytes e).getD 15 0 = e / 2 ^ 120 := by
  refine ⟨bigIntToBytesGo_length 16 e, fun i hi => bigIntToBytesGo_getD 16 i e hi, ?_, ?_⟩
  · show (bigIntToBytesGo 16 e).getD 0 0 = e % 256
    rw [bigIntToBytesGo_getD 16 0 e (by norm_num)]
    have hz : (8 : Nat) * 0 = 0 := by norm_num
    rw [hz, Nat.shiftRight_zero, and_ff_eq_mod]
  · show (bigIntToBytesGo 16 e).getD 15 0 = e / 2 ^ 120
    rw [bigIntToBytesGo_getD 16 15 e (by norm_num)]
    have hdiv : e >>> (8 * 15) = e / 2 ^ 120 := by
      rw [Nat.shiftRight_eq_div_pow]
    have hlt : e / 2 ^ 120 < 256 := by
      apply Nat.div_lt_of_lt_mul
      calc e < 2 ^ 128 := he
        _ = 2 ^ 120 * 256 := by norm_num
    rw [hdiv, and_ff_eq_mod, Nat.mod_eq_of_lt hlt]

theorem claim_C3_witness :
    (1 : Nat) < 2 ^ 128 ∧
      ((bigIntToBytes 1).length = 16 ∧
        (∀ i, i < 16 → (bigIntToBytes 1).getD i 0 = ((1 : Nat) >>> (8 * i)) &&& 0xff) ∧
        (bigIntToBytes 1).getD 0 0 = 1 % 256 ∧
        (bigIntToBytes 1).getD 15 0 = 1 / 2 ^ 120) :=
  ⟨by norm_num, claim_C3 1 (by norm_num)⟩

/-- Claim C3 (counterexample): the claim says byte 0 is the MOST-significant
8 bits of the entropy; for entropy 1 the code's byte 0 is 1, while the
most-significant 8 bits are `1 >>> 120 = 0`. -/
theorem claim_C3_counterexample :
    ¬((bigIntToBytes 1).getD 0 0 = ((1 : Nat) >>> 120) &&& 0xff) := by
  decide

/-! UTF-8 detour of the checksum hash input (claim C5). -/

theorem utf8Encode_id (l : List Nat) (h : ∀ b ∈ l, b < 128) : utf8Encode l = l := by
  induction l with
  | nil => rfl
  | cons b t ih =>
    unfold utf8Encode at ih ⊢
    simp only [List.map_cons, List.flatten_cons]
    rw [ih (fun x hx => h x (List.mem_cons_of_mem b hx))]
    unfold utf8EncodeUnit
    rw [if_pos (h b (List.mem_cons_self b t))]
    rfl

/-- Following the spec's words for claim C5: the checksum is the top 4 bits of
the first byte of SHA-256 computed over the raw 16 entropy bytes. -/
def specChecksum (entropy : Nat) : Nat :=
  ((sha256 (bigIntToBytes entropy)).headD 0) >>> 4

/-- Claim C5 (amended): the checksum used by `generateWords` and
`getEntropyFromWords` is the top 4 bits of the first byte of SHA-256 over the
UTF-8 ENCODING of the 16 entropy bytes (node hashes the JS string with
`'utf8'`); this equals SHA-256 over the raw bytes exactly when every byte is
below 0x80. -/
theorem claim_C5 (e : Nat) (he : e < 2 ^ 128) (hb : ∀ b ∈ bigIntToBytes e, b < 128) :
    checksumOf e = specChecksum e := by
  unfold checksumOf specChecksum sha256Hash
  rw [utf8Encode_id _ hb]

theorem claim_C5_witness :
    (0 : Nat) < 2 ^ 128 ∧ (∀ b ∈ bigIntToBytes 0, b < 128) ∧ checksumOf 0 = specChecksum 0 :=
  ⟨by norm_num, by decide, claim_C5 0 (by norm_num) (by decide)⟩

set_option maxRecDepth 8000 in
/-- Claim C5 (counterexample): at entropy 128 the byte `0x80` makes node's
UTF-8 update hash a 17-byte string, so the code's checksum (0) differs from
the top nibble of SHA-256 over the raw 16 bytes (3), and `generateWords`
does not encode `(e << 4) | specChecksum e`. -/
theorem claim_C5_counterexample :
    checksumOf 128 ≠ specChecksum 128 ∧
      generateWords myWordlist 128 ≠
        (genIdxLoop 12 ((128 <<< 4) ||| specChecksum 128) []).map
          (fun i => myWordlist.getD i undefStr) := by
  constructor
  · decide
  · decide

/-! Mnemonic-side arithmetic. -/

theorem and_7ff_eq_mod (x : Nat) : x &&& 0x7ff = x % 2048 := by
  have hx := Nat.and_pow_two_sub_one_eq_mod x 11
  norm_num at hx
  exact hx

theorem and_f_eq_mod (x : Nat) : x &&& 0xf = x % 16 := by
  have hx := Nat.and_pow_two_sub_one_eq_mod x 4
  norm_num at hx
  exact hx

theorem shiftLeft4_lor (a x : Nat) (h : x < 16) : (a <<< 4) ||| x = a * 16 + x := by
  rw [Nat.shiftLeft_eq]
  have h2 : (2 : Nat) ^ 4 = 16 := by norm_num
  rw [h2, Nat.mul_comm a 16, ← Nat.mul_add_lt_is_or (by omega : x < 2 ^ 4) a]

theorem shiftLeft11_lor (a x : Nat) (h : x < 2048) : (a <<< 11) ||| x = a * 2048 + x := by
  rw [Nat.shiftLeft_eq]
  have h2 : (2 : Nat) ^ 11 = 2048 := by norm_num
  rw [h2, Nat.mul_comm a 2048, ← Nat.mul_add_lt_is_or (by omega : x < 2 ^ 11) a]

theorem headD_wordsToBytes_lt (ws : List Nat) : (wordsToBytes ws).headD 0 < 256 := by
  cases ws with
  | nil => simp [wordsToBytes]
  | cons w t =>
    simp only [wordsToBytes, List.cons_append, List.headD_cons]
    exact Nat.lt_succ_of_le Nat.and_le_right

theorem checksumOf_lt_16 (e : Nat) : checksumOf e < 16 := by
  unfold checksumOf sha256Hash sha256
  rw [Nat.shiftRight_eq_div_pow]
  have := headD_wordsToBytes_lt ((chunk64 (sha256Pad (utf8Encode (bigIntToBytes e))).length
    (sha256Pad (utf8Encode (bigIntToBytes e)))).foldl compress H256)
  omega

theorem genIdxLoop_eq_map : ∀ (n p : Nat) (acc : List Nat),
    genIdxLoop n p acc = ((List.range n).map fun k => (p >>> (11 * k)) &&& 0x7ff).reverse ++ acc := by
  intro n
  induction n with
  | zero => intro p acc; simp [genIdxLoop]
  | succ n ih =>
    intro p acc
    unfold genIdxLoop
    rw [ih (p >>> 11), List.range_succ_eq_map, List.map_cons, List.map_map,
      List.reverse_cons, List.append_assoc, List.singleton_append]
    have hm : List.map (fun k => (p >>> 11) >>> (11 * k) &&& 0x7ff) (List.range n) =
        List.map ((fun k => p >>> (11 * k) &&& 0x7ff) ∘ (· + 1)) (List.range n) := by
      apply List.map_congr_left
      intro k _
      simp only [Function.comp_apply]
      rw [← Nat.shiftRight_add]
      have h11 : 11 + 11 * k = 11 * (k + 1) := by ring
      rw [h11]
    rw [hm]
    simp [Function.comp_def, Nat.succ_eq_add_one]

theorem foldl_idx_digits : ∀ (n p acc : Nat),
    List.foldl (fun a x => (a <<< 11) ||| x) acc
      (((List.range n).map fun k => (p >>> (11 * k)) &&& 0x7ff).reverse) =
      acc * 2048 ^ n + p % 2048 ^ n := by
  intro n
  induction n with
  | zero => intro p acc; simp [Nat.mod_one]
  | succ n ih =>
    intro p acc
    rw [List.range_succ, List.map_append, List.reverse_append]
    simp only [List.map_cons, List.map_nil, List.reverse_cons, List.reverse_nil,
      List.nil_append, List.singleton_append, List.foldl_cons]
    rw [ih p]
    have hlt : (p >>> (11 * n)) &&& 0x7ff < 2048 := by
      rw [and_7ff_eq_mod]
      exact Nat.mod_lt _ (by norm_num)
    rw [shiftLeft11_lor _ _ hlt]
    rw [and_7ff_eq_mod]
    have hsr : p >>> (11 * n) = p / 2048 ^ n := by
      rw [Nat.shiftRight_eq_div_pow]
      congr 1
      rw [Nat.pow_mul]
    rw [hsr]
    have hmod : p % 2048 ^ (n + 1) = p % 2048 ^ n + 2048 ^ n * (p / 2048 ^ n % 2048) := by
      rw [Nat.pow_succ, Nat.mod_mul]
    rw [hmod]
    ring

theorem genIdxLoop_mem_lt (n p : Nat) : ∀ i ∈ genIdxLoop n p [], i < 2048 := by
  intro i hi
  rw [genIdxLoop_eq_map] at hi
  simp only [List.append_nil, List.mem_reverse, List.mem_map] at hi
  obtain ⟨k, _, rfl⟩ := hi
  rw [and_7ff_eq_mod]
  exact Nat.mod_lt _ (by norm_num)

theorem genIdxLoop_length (n p : Nat) : (genIdxLoop n p []).length = n := by
  rw [genIdxLoop_eq_map]
  simp

/-- Claim C9: every index computed by `generateWords`'s loop is the low 11
bits of the shifting packed value, hence < 2048; with a 2048-entry wordlist
every lookup `BIP39_WORDLIST[index]` is in bounds, so an out-of-range lookup
(the internal-invariant failure) is unreachable. -/
theorem claim_C9 (wl : List Str) (e : Nat) (hlen : wl.length = 2048) :
    ∀ i ∈ genIdxLoop 12 ((e <<< 4) ||| checksumOf e) [],
      i < 2048 ∧ (wl.get? i).isSome = true := by
  intro i hi
  have hl := genIdxLoop_mem_lt 12 ((e <<< 4) ||| checksumOf e) i hi
  refine ⟨hl, ?_⟩
  rw [List.get?_eq_getElem?, List.getElem?_eq_getElem (by omega)]
  rfl

theorem myWordlist_length : myWordlist.length = 2048 := by
  unfold myWordlist
  rw [List.length_map, List.length_range]

theorem claim_C9_witness :
    myWordlist.length = 2048 ∧
      ∀ i ∈ genIdxLoop 12 ((1 <<< 4) ||| checksumOf 1) [],
        i < 2048 ∧ (myWordlist.get? i).isSome = true :=
  ⟨myWordlist_length, claim_C9 myWordlist 1 myWordlist_length⟩

/-! `indexOf` facts. -/

theorem wlIdxOfGo_eq_none : ∀ (l : List Str) (w : Str) (k : Nat),
    wlIdxOfGo l w k = none ↔ w ∉ l := by
  intro l
  induction l with
  | nil => intro w k; simp [wlIdxOfGo]
  | cons x xs ih =>
    intro w k
    unfold wlIdxOfGo
    by_cases hx : x = w
    · subst hx
      simp
    · rw [if_neg hx, ih w (k + 1)]
      constructor
      · intro hw hmem
        rcases List.mem_cons.mp hmem with rfl | hmem
        · exact hx rfl
        · exact hw hmem
      · intro hw hmem
        exact hw (List.mem_cons_of_mem x hmem)

theorem wlIdxOfGo_getD : ∀ (l : List Str), l.Nodup → ∀ (i k : Nat) (d : Str), i < l.length →
    wlIdxOfGo l (l.getD i d) k = some (k + i) := by
  intro l
  induction l with
  | nil => intro _ i k d h; simp at h
  | cons x xs ih =>
    intro hnd i k d h
    obtain ⟨hx, hxs⟩ := List.nodup_cons.mp hnd
    cases i with
    | zero => simp [wlIdxOfGo]
    | succ i =>
      have hi : i < xs.length := by simpa using h
      have hmem : xs.getD i d ∈ xs := by
        rw [List.getD_eq_getElem xs d hi]
        exact List.getElem_mem hi
      have hne : x ≠ xs.getD i d := fun hc => hx (hc ▸ hmem)
      simp only [List.getD_cons_succ, wlIdxOfGo, if_neg hne]
      rw [ih hxs i (k + 1) d hi]
      congr 1
      omega

theorem wlIdxOf_getD (wl : List Str) (hnd : wl.Nodup) (i : Nat) (d : Str) (h : i < wl.length) :
    wlIdxOf wl (wl.getD i d) = some i := by
  unfold wlIdxOf
  rw [wlIdxOfGo_getD wl hnd i 0 d h]
  norm_num

theorem wlIdxOf_eq_none (wl : List Str) (w : Str) : wlIdxOf wl w = none ↔ w ∉ wl :=
  wlIdxOfGo_eq_none wl w 0

/-- Claim C6: `generateWords` returns exactly 12 words ordered
most-significant slice first: word `i`'s wordlist index is bit-slice
`[11*(11-i), 11*(12-i))` of the packed value `(e << 4) | checksum`, so word 0
encodes the top 11 bits and word 11 the bottom 11 bits. -/
theorem claim_C6 (wl : List Str) (hwl : WordlistOK wl) (e : Nat) (he : e < 2 ^ 128) :
    (generateWords wl e).length = 12 ∧
      ∀ i, i < 12 →
        wlIdxOf wl ((generateWords wl e).getD i undefStr) =
          some ((((e <<< 4) ||| checksumOf e) >>> (11 * (11 - i))) &&& 0x7ff) := by
  obtain ⟨hlen, hnd, _⟩ := hwl
  unfold generateWords
  constructor
  · rw [List.length_map, genIdxLoop_length]
  · intro i hi
    have hleni : i < (List.map (fun i => wl.getD i undefStr)
        (genIdxLoop 12 ((e <<< 4) ||| checksumOf e) [])).length := by
      rw [List.length_map, genIdxLoop_length]
      exact hi
    rw [List.getD_eq_getElem _ undefStr hleni, List.getElem_map]
    have hib : i < (genIdxLoop 12 ((e <<< 4) ||| checksumOf e) []).length := by
      rw [genIdxLoop_length]
      exact hi
    have hidx : (genIdxLoop 12 ((e <<< 4) ||| checksumOf e) []).get ⟨i, hib⟩ =
        (((e <<< 4) ||| checksumOf e) >>> (11 * (11 - i))) &&& 0x7ff := by
      have hg := genIdxLoop_eq_map 12 ((e <<< 4) ||| checksumOf e) []
      rw [List.append_nil] at hg
      rw [List.get_eq_getElem]
      simp only [hg, List.getElem_reverse, List.getElem_map, List.getElem_range,
        List.length_map, List.length_range]
    rw [List.get_eq_getElem] at hidx
    rw [hidx]
    have hlt : (((e <<< 4) ||| checksumOf e) >>> (11 * (11 - i))) &&& 0x7ff < wl.length := by
      rw [hlen, and_7ff_eq_mod]
      exact Nat.mod_lt _ (by norm_num)
    rw [wlIdxOf_getD wl hnd _ undefStr hlt]

/-! The witness wordlist satisfies `WordlistOK`. -/

theorem mkWord_toNat (n : Nat) :
    (mkWord n).map Char.toNat = [97 + n / 676 % 26, 97 + n / 26 % 26, 97 + n % 26] := by
  unfold mkWord
  simp only [List.map_cons, List.map_nil]
  rw [charOfNat_toNat (by omega : 97 + n / 676 % 26 < 55296),
      charOfNat_toNat (by omega : 97 + n / 26 % 26 < 55296),
      charOfNat_toNat (by omega : 97 + n % 26 < 55296)]

theorem mkWord_inj {m n : Nat} (hm : m < 17576) (hn : n < 17576) (h : mkWord m = mkWord n) :
    m = n := by
  have ht : (mkWord m).map Char.toNat = (mkWord n).map Char.toNat := by rw [h]
  rw [mkWord_toNat, mkWord_toNat] at ht
  simp only [List.cons.injEq, and_true] at ht
  obtain ⟨h2, h1, h0⟩ := ht
  omega

theorem mkWord_chars (n : Nat) : ∀ c ∈ mkWord n, isLowerAlpha c = true := by
  intro c hc
  have ht : c.toNat ∈ (mkWord n).map Char.toNat := List.mem_map_of_mem Char.toNat hc
  rw [mkWord_toNat] at ht
  unfold isLowerAlpha
  simp only [List.mem_cons, List.not_mem_nil, or_false] at ht
  simp only [Bool.and_eq_true, decide_eq_true_eq]
  rcases ht with h | h | h <;> omega

theorem wordlistOK_myWordlist : WordlistOK myWordlist := by
  refine ⟨myWordlist_length, ?_, ?_⟩
  · unfold myWordlist
    refine List.Nodup.map_on ?_ (List.nodup_range 2048)
    intro m hm n hn h
    exact mkWord_inj (by simp at hm; omega) (by simp at hn; omega) h
  · intro w hw
    unfold myWordlist at hw
    rw [List.mem_map] at hw
    obtain ⟨n, _, rfl⟩ := hw
    exact ⟨by simp [mkWord], mkWord_chars n⟩

theorem claim_C6_witness :
    WordlistOK myWordlist ∧ (5 : Nat) < 2 ^ 128 ∧
      ((generateWords myWordlist 5).length = 12 ∧
        ∀ i, i < 12 →
          wlIdxOf myWordlist ((generateWords myWordlist 5).getD i undefStr) =
            some ((((5 <<< 4) ||| checksumOf 5) >>> (11 * (11 - i))) &&& 0x7ff)) :=
  ⟨wordlistOK_myWordlist, by norm_num,
    claim_C6 myWordlist wordlistOK_myWordlist 5 (by norm_num)⟩

/-! `getEntropyFromWords` characterization (claim C7). -/

theorem foldIdxs_eq (wl : List Str) : ∀ (ws : List Str) (acc : Nat),
    foldIdxs wl ws acc =
      if ∀ w ∈ ws, w ∈ wl then
        .ok (ws.foldl (fun a w => (a <<< 11) ||| (wlIdxOf wl w).getD 0) acc)
      else .error .bipInvalidWord := by
  intro ws
  induction ws with
  | nil => intro acc; simp [foldIdxs]
  | cons w ws ih =>
    intro acc
    unfold foldIdxs
    cases hIdx : wlIdxOf wl w with
    | none =>
      have hnm : w ∉ wl := (wlIdxOf_eq_none wl w).mp hIdx
      rw [if_neg (fun hall => hnm (hall w (List.mem_cons_self w ws)))]
    | some i =>
      have hm : w ∈ wl := by
        by_contra hnm
        rw [(wlIdxOf_eq_none wl w).mpr hnm] at hIdx
        exact Option.noConfusion hIdx
      show foldIdxs wl ws ((acc <<< 11) ||| i) = _
      rw [ih ((acc <<< 11) ||| i)]
      by_cases hall : ∀ x ∈ ws, x ∈ wl
      · rw [if_pos hall, if_pos (fun x hx => by
          rcases List.mem_cons.mp hx with rfl | hx
          · exact hm
          · exact hall x hx)]
        simp [hIdx]
      · rw [if_neg hall, if_neg (fun hall2 => hall (fun x hx => hall2 x (List.mem_cons_of_mem w hx)))]

/-- The pure 132-bit fold of the words' indices, `(acc << 11) | index`. -/
def packWords (wl : List Str) (ws : List Str) : Nat :=
  ws.foldl (fun a w => (a <<< 11) ||| (wlIdxOf wl w).getD 0) 0

/-- Claim C7: `getEntropyFromWords` returns `ok e` exactly when the sentence
has 12 words, all in the wordlist, the folded value's low 4 bits match the
checksum recomputed over the candidate entropy's bytes, and `e` is the folded
value shifted right by 4; in every other case it throws, with no silent
correction. -/
theorem claim_C7 (wl : List Str) (ws : List Str) (e : Nat) :
    getEntropyFromWords wl ws = .ok e ↔
      (e = packWords wl ws >>> 4 ∧ ws.length = 12 ∧ (∀ w ∈ ws, w ∈ wl) ∧
        packWords wl ws &&& 0xf = checksumOf (packWords wl ws >>> 4)) := by
  unfold getEntropyFromWords
  by_cases hlen : ws.length = 12
  · rw [if_neg (by omega)]
    rw [foldIdxs_eq wl ws 0]
    by_cases hall : ∀ w ∈ ws, w ∈ wl
    · rw [if_pos hall]
      show (if packWords wl ws &&& 0xf ≠ checksumOf (packWords wl ws >>> 4) then
          (.error .bipChecksumInvalid : Except Err Nat)
        else .ok (packWords wl ws >>> 4)) = .ok e ↔ _
      by_cases hck : packWords wl ws &&& 0xf = checksumOf (packWords wl ws >>> 4)
      · rw [if_neg (by omega)]
        constructor
        · intro h
          cases h
          exact ⟨rfl, hlen, hall, hck⟩
        · intro ⟨he, _, _, _⟩
          rw [he]
      · rw [if_pos hck]
        constructor
        · intro h
          exact Except.noConfusion h
        · intro ⟨_, _, _, hck2⟩
          exact absurd hck2 hck
    · rw [if_neg hall]
      constructor
      · intro h
        exact Except.noConfusion h
      · intro ⟨_, _, hall2, _⟩
        exact absurd hall2 hall
  · rw [if_pos hlen]
    constructor
    · intro h
      exact Except.noConfusion h
    · intro ⟨_, hlen2, _, _⟩
      exact absurd hlen2 hlen

/-! Sentence formatting round trip (claim C8). -/

theorem notWs_of_visible {c : Char} (h : 33 ≤ c.toNat ∧ c.toNat ≤ 126) : isJsWs c = false := by
  unfold isJsWs
  have hx : c.toNat ∉ [9, 10, 11, 12, 13, 32, 160, 5760, 8192, 8193, 8194, 8195, 8196, 8197,
      8198, 8199, 8200, 8201, 8202, 8232, 8233, 8239, 8287, 12288, 65279] := by
    simp only [List.mem_cons, List.not_mem_nil, or_false]
    omega
  simpa using hx

theorem isLowerAlpha_toNat {c : Char} (h : isLowerAlpha c = true) :
    97 ≤ c.toNat ∧ c.toNat ≤ 122 := by
  unfold isLowerAlpha at h
  simp only [Bool.and_eq_true, decide_eq_true_eq] at h
  exact h

theorem toUpperChar_toNat {c : Char} (h : 97 ≤ c.toNat ∧ c.toNat ≤ 122) :
    (toUpperChar c).toNat = c.toNat - 32 := by
  unfold toUpperChar
  rw [if_pos h]
  exact charOfNat_toNat (by omega)

theorem jsToLower_lower_word (w : Str) (hw : ∀ c ∈ w, isLowerAlpha c = true) :
    jsToLower w = w :=
  jsToLower_eq_self w fun c hc => by
    have := isLowerAlpha_toNat (hw c hc)
    omega

theorem jsToLower_capitalize (w : Str) (hw : ∀ c ∈ w, isLowerAlpha c = true) :
    jsToLower (capitalize w) = w := by
  cases w with
  | nil => rfl
  | cons c rest =>
    have hcl := isLowerAlpha_toNat (hw c (List.mem_cons_self c rest))
    have hup := toUpperChar_toNat hcl
    show jsToLower (toUpperChar c :: rest) = c :: rest
    unfold jsToLower
    rw [List.map_cons]
    congr 1
    · rw [if_pos (by omega)]
      have hc : (toUpperChar c).toNat + 32 = c.toNat := by omega
      rw [hc, Char.ofNat_toNat]
    · have hr := jsToLower_lower_word rest (fun x hx => hw x (List.mem_cons_of_mem c hx))
      unfold jsToLower at hr
      exact hr

theorem getLast?_append_right {α : Type} (l1 l2 : List α) (h : l2 ≠ []) :
    (l1 ++ l2).getLast? = l2.getLast? := by
  rw [List.getLast?_append]
  have : l2.getLast?.isSome = true := by
    rw [List.getLast?_isSome]
    exact h
  obtain ⟨x, hx⟩ := Option.isSome_iff_exists.mp this
  rw [hx]
  rfl

theorem head?_intercalate_space (ts : List Str) (t : Str) (ht : t ≠ []) :
    (List.intercalate [' '] (t :: ts)).head? = t.head? := by
  obtain ⟨u, hu⟩ := intercalate_head_tail [' '] t ts
  rw [hu]
  cases t with
  | nil => exact absurd rfl ht
  | cons c t' => rfl

theorem getLast?_intercalate_space : ∀ (ts : List Str) (t : Str), (∀ x ∈ t :: ts, x ≠ []) →
    ∃ x, x ∈ t :: ts ∧ (List.intercalate [' '] (t :: ts)).getLast? = x.getLast? := by
  intro ts
  induction ts with
  | nil =>
    intro t _
    exact ⟨t, by simp, by rw [intercalate_singleton]⟩
  | cons t' ts ih =>
    intro t h
    obtain ⟨x, hx, hxl⟩ := ih t' (fun x hx => h x (List.mem_cons_of_mem t hx))
    refine ⟨x, List.mem_cons_of_mem t hx, ?_⟩
    rw [intercalate_cons_cons, List.append_assoc,
      getLast?_append_right _ _ (by
        obtain ⟨u, hu⟩ := intercalate_head_tail [' '] t' ts
        simp [hu]),
      getLast?_append_right _ _ (by
        obtain ⟨u, hu⟩ := intercalate_head_tail [' '] t' ts
        have ht' : t' ≠ [] := h t' (by simp)
        rw [hu]
        cases t' with
        | nil => exact absurd rfl ht'
        | cons c u' => simp), hxl]

theorem mem_of_getLast?_eq (s : Str) (c : Char) (h : s.getLast? = some c) : c ∈ s := by
  rw [← List.head?_reverse] at h
  exact (List.mem_reverse).mp (mem_of_head?_eq _ c h)

theorem jsTrim_intercalate_space (ts : List Str) (t : Str)
    (h : ∀ x ∈ t :: ts, x ≠ [] ∧ ∀ c ∈ x, isJsWs c = false) :
    jsTrim (List.intercalate [' '] (t :: ts)) = List.intercalate [' '] (t :: ts) := by
  refine jsTrim_eq_self _ ?_ ?_
  · intro c hc
    rw [head?_intercalate_space ts t (h t (by simp)).1] at hc
    exact (h t (by simp)).2 c (mem_of_head?_eq t c hc)
  · intro c hc
    obtain ⟨x, hx, hxl⟩ := getLast?_intercalate_space ts t (fun x hx => (h x hx).1)
    rw [hxl] at hc
    exact (h x hx).2 c (mem_of_getLast?_eq x c hc)

theorem filterMap_some_of {α : Type} (f : α → Option α) :
    ∀ (l : List α), (∀ x ∈ l, f x = some x) → l.filterMap f = l := by
  intro l
  induction l with
  | nil => intro _; rfl
  | cons x xs ih =>
    intro h
    rw [List.filterMap_cons, h x (List.mem_cons_self x xs),
      ih (fun y hy => h y (List.mem_cons_of_mem x hy))]

theorem exists_cons_of_length_pos {α : Type} (l : List α) (h : 0 < l.length) :
    ∃ a t, l = a :: t := by
  cases l with
  | nil => simp at h
  | cons a t => exact ⟨a, t, rfl⟩

theorem filter_ne_dot_eq_self (w : Str) (h : ∀ c ∈ w, 65 ≤ c.toNat ∧ c.toNat ≤ 122) :
    w.filter (fun c => c ≠ '.') = w := by
  refine List.filter_eq_self.mpr ?_
  intro c hc
  have hb := h c hc
  refine decide_eq_true ?_
  intro hdot
  subst hdot
  simp at hb

theorem capitalize_chars (w : Str) (hl : ∀ c ∈ w, isLowerAlpha c = true) :
    ∀ c ∈ capitalize w, 65 ≤ c.toNat ∧ c.toNat ≤ 122 := by
  cases w with
  | nil => intro c hc; simp [capitalize] at hc
  | cons a rest =>
    intro c hc
    have hc2 : c ∈ toUpperChar a :: rest := hc
    rcases List.mem_cons.mp hc2 with rfl | hc3
    · have h1 := toUpperChar_toNat (isLowerAlpha_toNat (hl a (List.mem_cons_self a rest)))
      have h2 := isLowerAlpha_toNat (hl a (List.mem_cons_self a rest))
      omega
    · have := isLowerAlpha_toNat (hl c (List.mem_cons_of_mem a hc3))
      omega

theorem capitalize_ne_nil (w : Str) (h : w ≠ []) : capitalize w ≠ [] := by
  cases w with
  | nil => exact absurd rfl h
  | cons a rest => simp [capitalize]

/-- The tokenizer inverts the formatter on 12 wordlist words. -/
theorem extractWords_formatSentence (wl : List Str) (hwl : WordlistOK wl) (ws : List Str)
    (hlen : ws.length = 12) (hmem : ∀ w ∈ ws, w ∈ wl) :
    extractWords wl (formatSentence ws) = ws := by
  obtain ⟨_, _, hwords⟩ := hwl
  obtain ⟨w0, ws1, rfl⟩ := exists_cons_of_length_pos ws (by omega)
  simp only [List.length_cons] at hlen
  obtain ⟨w1, ws2, rfl⟩ := exists_cons_of_length_pos ws1 (by omega)
  simp only [List.length_cons] at hlen
  obtain ⟨w2, ws3, rfl⟩ := exists_cons_of_length_pos ws2 (by omega)
  simp only [List.length_cons] at hlen
  obtain ⟨w3, ws4, rfl⟩ := exists_cons_of_length_pos ws3 (by omega)
  simp only [List.length_cons] at hlen
  obtain ⟨w4, ws5, rfl⟩ := exists_cons_of_length_pos ws4 (by omega)
  simp only [List.length_cons] at hlen
  obtain ⟨w5, ws6, rfl⟩ := exists_cons_of_length_pos ws5 (by omega)
  simp only [List.length_cons] at hlen
  obtain ⟨w6, ws7, rfl⟩ := exists_cons_of_length_pos ws6 (by omega)
  simp only [List.length_cons] at hlen
  obtain ⟨w7, ws8, rfl⟩ := exists_cons_of_length_pos ws7 (by omega)
  simp only [List.length_cons] at hlen
  obtain ⟨w8, ws9, rfl⟩ := exists_cons_of_length_pos ws8 (by omega)
  simp only [List.length_cons] at hlen
  obtain ⟨w9, ws10, rfl⟩ := exists_cons_of_length_pos ws9 (by omega)
  simp only [List.length_cons] at hlen
  obtain ⟨w10, ws11, rfl⟩ := exists_cons_of_length_pos ws10 (by omega)
  simp only [List.length_cons] at hlen
  obtain ⟨w11, ws12, rfl⟩ := exists_cons_of_length_pos ws11 (by omega)
  simp only [List.length_cons] at hlen
  obtain rfl : ws12 = [] := List.length_eq_zero.mp (by omega)
  have hmm : ∀ w ∈ [w0, w1, w2, w3, w4, w5, w6, w7, w8, w9, w10, w11],
      w ≠ [] ∧ ∀ c ∈ w, isLowerAlpha c = true :=
    fun w hw => hwords w (hmem w hw)
  have hb : ∀ w ∈ [w0, w1, w2, w3, w4, w5, w6, w7, w8, w9, w10, w11],
      ∀ c ∈ w, 65 ≤ c.toNat ∧ c.toNat ≤ 122 := by
    intro w hw c hc
    have := isLowerAlpha_toNat ((hmm w hw).2 c hc)
    omega
  have htok : ∀ t ∈ [capitalize w0, w1, w2, w3, capitalize w4, w5, w6, w7,
      capitalize w8, w9, w10, w11], t ≠ [] ∧ ∀ c ∈ t, 65 ≤ c.toNat ∧ c.toNat ≤ 122 := by
    intro t ht
    simp only [List.mem_cons, List.not_mem_nil, or_false] at ht
    rcases ht with rfl | rfl | rfl | rfl | rfl | rfl | rfl | rfl | rfl | rfl | rfl | rfl
    · exact ⟨capitalize_ne_nil w0 (hmm w0 (by simp)).1, capitalize_chars w0 (hmm w0 (by simp)).2⟩
    · exact ⟨(hmm t (by simp)).1, hb t (by simp)⟩
    · exact ⟨(hmm t (by simp)).1, hb t (by simp)⟩
    · exact ⟨(hmm t (by simp)).1, hb t (by simp)⟩
    · exact ⟨capitalize_ne_nil w4 (hmm w4 (by simp)).1, capitalize_chars w4 (hmm w4 (by simp)).2⟩
    · exact ⟨(hmm t (by simp)).1, hb t (by simp)⟩
    · exact ⟨(hmm t (by simp)).1, hb t (by simp)⟩
    · exact ⟨(hmm t (by simp)).1, hb t (by simp)⟩
    · exact ⟨capitalize_ne_nil w8 (hmm w8 (by simp)).1, capitalize_chars w8 (hmm w8 (by simp)).2⟩
    · exact ⟨(hmm t (by simp)).1, hb t (by simp)⟩
    · exact ⟨(hmm t (by simp)).1, hb t (by simp)⟩
    · exact ⟨(hmm t (by simp)).1, hb t (by simp)⟩
  have htokWs : ∀ t ∈ [capitalize w0, w1, w2, w3, capitalize w4, w5, w6, w7,
      capitalize w8, w9, w10, w11], t ≠ [] ∧ ∀ c ∈ t, isJsWs c = false := by
    intro t ht
    refine ⟨(htok t ht).1, fun c hc => notWs_of_visible ?_⟩
    have := (htok t ht).2 c hc
    omega
  have hfs : (formatSentence [w0, w1, w2, w3, w4, w5, w6, w7, w8, w9, w10, w11]).filter
      (fun c => c ≠ '.') =
      List.intercalate [' '] [capitalize w0, w1, w2, w3, capitalize w4, w5, w6, w7,
        capitalize w8, w9, w10, w11] := by
    have hp0 : phrase [w0, w1, w2, w3, w4, w5, w6, w7, w8, w9, w10, w11] 0 =
        capitalize w0 ++ [' '] ++ w1 ++ [' '] ++ w2 ++ [' '] ++ w3 := rfl
    have hp4 : phrase [w0, w1, w2, w3, w4, w5, w6, w7, w8, w9, w10, w11] 4 =
        capitalize w4 ++ [' '] ++ w5 ++ [' '] ++ w6 ++ [' '] ++ w7 := rfl
    have hp8 : phrase [w0, w1, w2, w3, w4, w5, w6, w7, w8, w9, w10, w11] 8 =
        capitalize w8 ++ [' '] ++ w9 ++ [' '] ++ w10 ++ [' '] ++ w11 := rfl
    unfold formatSentence
    rw [intercalate_cons_cons, intercalate_cons_cons, intercalate_singleton, hp0, hp4, hp8]
    rw [intercalate_cons_cons, intercalate_cons_cons, intercalate_cons_cons,
      intercalate_cons_cons, intercalate_cons_cons, intercalate_cons_cons,
      intercalate_cons_cons, intercalate_cons_cons, intercalate_cons_cons,
      intercalate_cons_cons, intercalate_cons_cons, intercalate_singleton]
    simp only [List.filter_append, List.append_assoc]
    rw [filter_ne_dot_eq_self _ (htok (capitalize w0) (by simp)).2,
      filter_ne_dot_eq_self _ (hb w1 (by simp)),
      filter_ne_dot_eq_self _ (hb w2 (by simp)),
      filter_ne_dot_eq_self _ (hb w3 (by simp)),
      filter_ne_dot_eq_self _ (htok (capitalize w4) (by simp)).2,
      filter_ne_dot_eq_self _ (hb w5 (by simp)),
      filter_ne_dot_eq_self _ (hb w6 (by simp)),
      filter_ne_dot_eq_self _ (hb w7 (by simp)),
      filter_ne_dot_eq_self _ (htok (capitalize w8) (by simp)).2,
      filter_ne_dot_eq_self _ (hb w9 (by simp)),
      filter_ne_dot_eq_self _ (hb w10 (by simp)),
      filter_ne_dot_eq_self _ (hb w11 (by simp))]
    simp
  unfold extractWords
  rw [hfs, jsTrim_intercalate_space _ _ (fun t ht => htokWs t ht),
    splitWs_intercalate_space _ _ (fun t ht => htokWs t ht)]
  simp only [List.map_cons, List.map_nil,
    jsToLower_capitalize w0 (hmm w0 (by simp)).2,
    jsToLower_capitalize w4 (hmm w4 (by simp)).2,
    jsToLower_capitalize w8 (hmm w8 (by simp)).2,
    jsToLower_lower_word w1 (hmm w1 (by simp)).2,
    jsToLower_lower_word w2 (hmm w2 (by simp)).2,
    jsToLower_lower_word w3 (hmm w3 (by simp)).2,
    jsToLower_lower_word w5 (hmm w5 (by simp)).2,
    jsToLower_lower_word w6 (hmm w6 (by simp)).2,
    jsToLower_lower_word w7 (hmm w7 (by simp)).2,
    jsToLower_lower_word w9 (hmm w9 (by simp)).2,
    jsToLower_lower_word w10 (hmm w10 (by simp)).2,
    jsToLower_lower_word w11 (hmm w11 (by simp)).2]
  refine filterMap_some_of _ _ ?_
  intro x hx
  have hxwl : x ∈ wl := hmem x hx
  have hcont : wl.contains x = true := by simpa using hxwl
  rw [if_pos hcont]

/-- Claim C8: for every 12-word sequence drawn from the wordlist,
`extractWords (formatSentence words)` returns exactly the same 12 words in
order — the formatter's capitalization and punctuation are fully reversed by
the tokenizer. -/
theorem claim_C8 (wl : List Str) (hwl : WordlistOK wl) (ws : List Str)
    (hlen : ws.length = 12) (hmem : ∀ w ∈ ws, w ∈ wl) :
    extractWords wl (formatSentence ws) = ws :=
  extractWords_formatSentence wl hwl ws hlen hmem

set_option maxRecDepth 8000 in
theorem claim_C8_witness :
    WordlistOK myWordlist ∧ (List.replicate 12 (mkWord 0)).length = 12 ∧
      (∀ w ∈ List.replicate 12 (mkWord 0), w ∈ myWordlist) ∧
      extractWords myWordlist (formatSentence (List.replicate 12 (mkWord 0))) =
        List.replicate 12 (mkWord 0) :=
  ⟨wordlistOK_myWordlist, by decide, by decide,
    claim_C8 myWordlist wordlistOK_myWordlist _ (by decide) (by decide)⟩

/-! Parse results are 128-bit (for claim C1). -/

theorem hexVal_lt {c : Char} (h : isHexDigit c = true) : hexVal c < 16 := by
  have hb := isHexDigit_toNat h
  unfold hexVal
  split_ifs <;> omega

theorem parseHex_fold_lt : ∀ (g : Str) (a B : Nat), (∀ c ∈ g, isHexDigit c = true) → a < B →
    g.foldl (fun a c => a * 16 + hexVal c) a < B * 16 ^ g.length := by
  intro g
  induction g with
  | nil => intro a B _ ha; simpa using ha
  | cons c g ih =>
    intro a B hg ha
    rw [List.foldl_cons]
    have hstep : a * 16 + hexVal c < B * 16 := by
      have := hexVal_lt (hg c (List.mem_cons_self c g))
      omega
    have := ih (a * 16 + hexVal c) (B * 16) (fun x hx => hg x (List.mem_cons_of_mem c hx)) hstep
    calc List.foldl (fun a c => a * 16 + hexVal c) (a * 16 + hexVal c) g
        < B * 16 * 16 ^ g.length := this
      _ = B * 16 ^ (c :: g).length := by
          rw [List.length_cons, Nat.pow_succ]
          ring

theorem parseHex_lt_65536 (g : Str) (h : isHexGroup g = true) : parseHex g < 65536 := by
  unfold isHexGroup at h
  simp only [Bool.and_eq_true, decide_eq_true_eq, List.all_eq_true] at h
  obtain ⟨⟨_, hlen⟩, hhex⟩ := h
  have := parseHex_fold_lt g 0 1 (fun c hc => hhex c hc) Nat.one_pos
  unfold parseHex
  calc g.foldl (fun a c => a * 16 + hexVal c) 0 < 1 * 16 ^ g.length := this
    _ ≤ 1 * 16 ^ 4 := by
        apply Nat.mul_le_mul_left
        exact Nat.pow_le_pow_right (by norm_num) hlen
    _ = 65536 := by norm_num

theorem foldGroups_ok_lt : ∀ (gs : List Str) (acc num B : Nat),
    foldGroups gs acc = .ok num → acc < B → num < B * 65536 ^ gs.length := by
  intro gs
  induction gs with
  | nil =>
    intro acc num B h ha
    cases h
    simpa using ha
  | cons g gs ih =>
    intro acc num B h ha
    unfold foldGroups at h
    by_cases hg : isHexGroup g = true
    · rw [if_pos hg] at h
      have hpx : parseHex g < 65536 := parseHex_lt_65536 g hg
      have hstep : (acc <<< 16) ||| parseHex g < B * 65536 := by
        rw [shiftLeft16_lor _ _ hpx]
        omega
      have := ih _ num (B * 65536) h hstep
      calc num < B * 65536 * 65536 ^ gs.length := this
        _ = B * 65536 ^ (g :: gs).length := by
            rw [List.length_cons, Nat.pow_succ]
            ring
    · rw [if_neg hg] at h
      exact Except.noConfusion h

set_option maxHeartbeats 1600000 in
theorem ip6ToBigInt_lt (a : Str) (e : Nat) (h : ip6ToBigInt a = .ok e) : e < 2 ^ 128 := by
  simp only [ip6ToBigInt] at h
  repeat'
    first
      | exact Except.noConfusion h
      | split at h
  all_goals (
    rename_i hlen8
    push_neg at hlen8
    have hfl := foldGroups_ok_lt _ 0 e 1 h Nat.one_pos
    have h2 : (1 : Nat) * 65536 ^ 8 = 2 ^ 128 := by norm_num
    rw [hlen8, h2] at hfl
    exact hfl)

/-! Decoding inverts encoding on the word level (for claim C1). -/

theorem getD_mem_of_lt (wl : List Str) (i : Nat) (d : Str) (h : i < wl.length) :
    wl.getD i d ∈ wl := by
  rw [List.getD_eq_getElem wl d h]
  exact List.getElem_mem h

theorem generateWords_length (wl : List Str) (e : Nat) : (generateWords wl e).length = 12 := by
  unfold generateWords
  rw [List.length_map, genIdxLoop_length]

theorem generateWords_mem (wl : List Str) (hlen : wl.length = 2048) (e : Nat) :
    ∀ w ∈ generateWords wl e, w ∈ wl := by
  intro w hw
  unfold generateWords at hw
  rw [List.mem_map] at hw
  obtain ⟨i, hi, rfl⟩ := hw
  have hilt := genIdxLoop_mem_lt 12 _ i hi
  exact getD_mem_of_lt wl i undefStr (by omega)

theorem getEntropy_generateWords (wl : List Str) (hwl : WordlistOK wl) (e : Nat)
    (he : e < 2 ^ 128) : getEntropyFromWords wl (generateWords wl e) = .ok e := by
  obtain ⟨hlen, hnd, _⟩ := hwl
  have hc16 : checksumOf e < 16 := checksumOf_lt_16 e
  have hpadd : (e <<< 4) ||| checksumOf e = e * 16 + checksumOf e :=
    shiftLeft4_lor e (checksumOf e) hc16
  have h128 : (2 : Nat) ^ 128 = 340282366920938463463374607431768211456 := by norm_num
  have hplt : (e <<< 4) ||| checksumOf e < 2048 ^ 12 := by
    rw [hpadd]
    have h12 : (2048 : Nat) ^ 12 = 340282366920938463463374607431768211456 * 16 := by norm_num
    omega
  have hpack : packWords wl (generateWords wl e) = (e <<< 4) ||| checksumOf e := by
    unfold packWords generateWords
    rw [List.foldl_map]
    have hext : List.foldl
        (fun a i => (a <<< 11) ||| (wlIdxOf wl (wl.getD i undefStr)).getD 0) 0
        (genIdxLoop 12 ((e <<< 4) ||| checksumOf e) []) =
        List.foldl (fun a i => (a <<< 11) ||| i) 0
          (genIdxLoop 12 ((e <<< 4) ||| checksumOf e) []) := by
      apply List.foldl_ext
      intro acc x hx
      rw [wlIdxOf_getD wl hnd x undefStr
        (by rw [hlen]; exact genIdxLoop_mem_lt 12 _ x hx)]
      rfl
    rw [hext]
    have hg := genIdxLoop_eq_map 12 ((e <<< 4) ||| checksumOf e) []
    rw [List.append_nil] at hg
    rw [hg, foldl_idx_digits, Nat.zero_mul, Nat.zero_add, Nat.mod_eq_of_lt hplt]
  have hshift : ((e <<< 4) ||| checksumOf e) >>> 4 = e := by
    rw [hpadd, Nat.shiftRight_eq_div_pow]
    have h4 : (2 : Nat) ^ 4 = 16 := by norm_num
    rw [h4, Nat.mul_comm e 16, Nat.mul_add_div (by norm_num)]
    omega
  have hlow : ((e <<< 4) ||| checksumOf e) &&& 0xf = checksumOf e := by
    rw [hpadd, and_f_eq_mod, Nat.mul_comm e 16, Nat.mul_add_mod, Nat.mod_eq_of_lt hc16]
  unfold getEntropyFromWords
  rw [if_neg (by rw [generateWords_length]; omega)]
  rw [foldIdxs_eq wl _ 0, if_pos (generateWords_mem wl hlen e)]
  have hpack' : (generateWords wl e).foldl (fun a w => (a <<< 11) ||| (wlIdxOf wl w).getD 0) 0 =
      (e <<< 4) ||| checksumOf e := hpack
  show (if ((generateWords wl e).foldl (fun a w => (a <<< 11) ||| (wlIdxOf wl w).getD 0) 0) &&& 0xf ≠
      ((sha256Hash (bigIntToBytes (((generateWords wl e).foldl
        (fun a w => (a <<< 11) ||| (wlIdxOf wl w).getD 0) 0) >>> 4))).headD 0) >>> 4 then
      (.error .bipChecksumInvalid : Except Err Nat)
    else .ok (((generateWords wl e).foldl
      (fun a w => (a <<< 11) ||| (wlIdxOf wl w).getD 0) 0) >>> 4)) = .ok e
  rw [hpack', hshift, hlow]
  rw [if_neg (by intro hne; exact hne rfl)]

theorem formatSentence_ne_nil (ws : List Str) : formatSentence ws ≠ [] := by
  unfold formatSentence
  simp

/-- Claim C1: for every valid IPv6 address string (one that `ip6ToBigInt`
parses to some value `e`), the full pipeline round-trips on the 128-bit
value: `ip6ToSentence` succeeds, and `sentenceToIp6` of that sentence returns
exactly `bigIntToIp6 (ip6ToBigInt a)` — value-equality, though the rendered
string may differ textually from the input. -/
theorem claim_C1 (wl : List Str) (hwl : WordlistOK wl) (a : Str) (e : Nat)
    (h : ip6ToBigInt a = .ok e) :
    ∃ s, ip6ToSentence wl a = .ok s ∧ sentenceToIp6 wl s = .ok (bigIntToIp6 e) := by
  have he := ip6ToBigInt_lt a e h
  have ha : a ≠ [] := by
    intro hnil
    subst hnil
    rw [show ip6ToBigInt [] = .error .ipv6NotString from rfl] at h
    exact Except.noConfusion h
  refine ⟨formatSentence (generateWords wl e), ?_, ?_⟩
  · unfold ip6ToSentence
    rw [if_neg ha, h]
  · unfold sentenceToIp6
    rw [if_neg (formatSentence_ne_nil _),
      extractWords_formatSentence wl hwl _ (generateWords_length wl e)
        (generateWords_mem wl hwl.1 e),
      getEntropy_generateWords wl hwl e he]

theorem claim_C1_witness :
    WordlistOK myWordlist ∧ ip6ToBigInt (("::1").data) = .ok 1 ∧
      ∃ s, ip6ToSentence myWordlist (("::1").data) = .ok s ∧
        sentenceToIp6 myWordlist s = .ok (bigIntToIp6 1) :=
  ⟨wordlistOK_myWordlist, by rfl,
    claim_C1 myWordlist wordlistOK_myWordlist (("::1").data) 1 (by rfl)⟩
